import Mathlib

/-!
Verification of the layered-storage core (`src/layered-storage/core.ts`).

The store is modelled shallowly: JavaScript `Map`s become association lists
(`alistGet` / `alistSet` / `alistDelete` mirror `Map.get` / `Map.set` /
`Map.delete`, including the insertion-order behaviour), the JS `Set` of
segments becomes an insertion-ordered duplicate-free list, and the class
fields of `LayeredStorageCore` become the fields of the `Core` structure.
Every method of the class is translated statement by statement.
-/

namespace LS

/-- Keys (`keyof KeyValue` in the source) are opaque identifiers. -/
abbrev Key := Nat

/-- Stored values are opaque payloads. -/
abbrev Value := Nat

/-- Layers are numbers (`LayerRange` in the source); priority = numeric value. -/
abbrev Layer := Int

/-- A segment is either the special monolithic sentinel (the public
`monolithic` symbol of the class) or a caller-supplied handle. -/
inductive Segment where
  | monolithic
  | real (id : Nat)
deriving DecidableEq, Repr

/-- `Map.get`: first binding of the key, if any. -/
def alistGet {α β : Type} [DecidableEq α] : List (α × β) → α → Option β
  | [], _ => none
  | (a, b) :: rest, k => if a = k then some b else alistGet rest k

/-- `Map.set`: overwrite the binding in place if the key is present,
append a fresh binding otherwise (JS Maps keep insertion order). -/
def alistSet {α β : Type} [DecidableEq α] : List (α × β) → α → β → List (α × β)
  | [], k, v => [(k, v)]
  | (a, b) :: rest, k, v =>
    if a = k then (k, v) :: rest else (a, b) :: alistSet rest k v

/-- `Map.delete`: remove the binding of the key, if present. -/
def alistDelete {α β : Type} [DecidableEq α] : List (α × β) → α → List (α × β)
  | [], _ => []
  | (a, b) :: rest, k => if a = k then rest else (a, b) :: alistDelete rest k

/-- `Set.add`: append if absent, no-op if already a member. -/
def segAdd (l : List Segment) (s : Segment) : List Segment :=
  if s ∈ l then l else l ++ [s]

/-- `Set.delete`: remove the member, if present. -/
def segRemove (l : List Segment) (s : Segment) : List Segment := l.erase s

/-- Key → value map for a (layer, segment) pair. -/
abbrev KVMap := List (Key × Value)

/-- Segment → key-value-map storage of one layer. -/
abbrev SegMap := List (Segment × KVMap)

/-- The raw store: layer → segment → key → value (`_data` in the source). -/
abbrev Data := List (Layer × SegMap)

/-- The state of a `LayeredStorageCore` instance: `_data`, `_layers`,
`_segments` and `_topLevelCache`. -/
structure Core where
  data : Data
  layers : List Layer
  segments : List Segment
  topLevelCache : List (Segment × KVMap)
deriving DecidableEq, Repr

/-- The state of a freshly constructed `LayeredStorageCore`. -/
def Core.empty : Core :=
  { data := [], layers := [], segments := [], topLevelCache := [] }

/-- `reverseNumeric` comparator applied through `Array.sort`: the layer list
is rebuilt in descending numeric order (insertion sort formulation). -/
def insertDesc (x : Layer) : List Layer → List Layer
  | [] => [x]
  | y :: ys => if y ≤ x then x :: y :: ys else y :: insertDesc x ys

/-- `[...this._data.keys()].sort(reverseNumeric)`. -/
def sortDesc : List Layer → List Layer
  | [] => []
  | x :: xs => insertDesc x (sortDesc xs)

/-- The segment map of one layer, empty if the layer does not exist. -/
def lData (d : Data) (l : Layer) : SegMap := (alistGet d l).getD []

/-- The key-value map of a (layer, segment) pair, empty if absent. -/
def lsData (d : Data) (l : Layer) (s : Segment) : KVMap :=
  (alistGet (lData d l) s).getD []

/-- Raw-store lookup of one (layer, segment, key) triple. -/
def lookupKey (d : Data) (l : Layer) (s : Segment) (k : Key) : Option Value :=
  alistGet (lsData d l s) k

/-- The state effect of `_getLSData`: get-or-create the layer (re-sorting
`_layers` on creation) and then the segment map on it (registering the
segment in `_segments` on creation). -/
def ensureLS (st : Core) (l : Layer) (s : Segment) : Core :=
  let p : Data × List Layer :=
    match alistGet st.data l with
    | some _ => (st.data, st.layers)
    | none =>
      let d := alistSet st.data l []
      (d, sortDesc (d.map Prod.fst))
  let ld := (alistGet p.1 l).getD []
  match alistGet ld s with
  | some _ => { st with data := p.1, layers := p.2 }
  | none =>
    { st with
      data := alistSet p.1 l (alistSet ld s [])
      layers := p.2
      segments := segAdd st.segments s }

/-- `_getLSData`: the updated state together with the returned key-value map. -/
def getLSData (st : Core) (l : Layer) (s : Segment) : Core × KVMap :=
  let st1 := ensureLS st l s
  (st1, lsData st1.data l s)

/-- Overwrite the key in the (layer, segment) map inside the raw store
(`lsData.set(key, value)` on the map returned by `_getLSData`). -/
def dataSetKey (d : Data) (l : Layer) (s : Segment) (k : Key) (v : Value) : Data :=
  alistSet d l (alistSet (lData d l) s (alistSet (lsData d l s) k v))

/-- Remove the key from the (layer, segment) map inside the raw store
(`lsData.delete(key)` on the map returned by `_getLSData`). -/
def dataDelKey (d : Data) (l : Layer) (s : Segment) (k : Key) : Data :=
  alistSet d l (alistSet (lData d l) s (alistDelete (lsData d l s) k))

/-- Write the resolved value of the key into the segment's top level cache
map (`sCache.set(key, ...)`). -/
def cacheCommit (st : Core) (s : Segment) (k : Key) (v : Value) : Core :=
  { st with
    topLevelCache :=
      alistSet st.topLevelCache s
        (alistSet ((alistGet st.topLevelCache s).getD []) k v) }

/-- The layer loop of `_updateCache` for one segment: walk the given layer
list from the front, check the segment's map and then the monolithic map at
each layer through `_getLSData` (which creates missing maps), and commit the
first hit into the segment's cache. -/
def cacheSearch (k : Key) (s : Segment) : List Layer → Core → Core
  | [], st => st
  | l :: rest, st =>
    let p := getLSData st l s
    match alistGet p.2 k with
    | some v => cacheCommit p.1 s k v
    | none =>
      let q := getLSData p.1 l Segment.monolithic
      match alistGet q.2 k with
      | some v => cacheCommit q.1 s k v
      | none => cacheSearch k s rest q.1

/-- One iteration of the `segmentsLoop` of `_updateCache`: get-or-create the
segment's cache map, delete the outdated value, then search the layers. -/
def updateCacheSeg (st : Core) (k : Key) (s : Segment) : Core :=
  let sOld := (alistGet st.topLevelCache s).getD []
  let st1 :=
    { st with topLevelCache := alistSet st.topLevelCache s (alistDelete sOld k) }
  cacheSearch k s st1.layers st1

/-- `_updateCache`: run the per-segment refresh for every known segment.
During the loop `_getLSData` can register the monolithic sentinel in
`_segments`; a JS `Set` iterator visits members appended during iteration,
so such a newly appended monolithic segment is processed at the end. -/
def updateCache (st : Core) (k : Key) : Core :=
  let st1 := st.segments.foldl (fun acc s => updateCacheSeg acc k s) st
  if Segment.monolithic ∈ st1.segments ∧ Segment.monolithic ∉ st.segments then
    updateCacheSeg st1 k Segment.monolithic
  else st1

/-- `set`: write the value through `_getLSData` and refresh the cache. -/
def set (st : Core) (l : Layer) (s : Segment) (k : Key) (v : Value) : Core :=
  let st1 := ensureLS st l s
  updateCache { st1 with data := dataSetKey st1.data l s k v } k

/-- `delete`: remove the entry through `_getLSData` and refresh the cache. -/
def delete (st : Core) (l : Layer) (s : Segment) (k : Key) : Core :=
  let st1 := ensureLS st l s
  updateCache { st1 with data := dataDelKey st1.data l s k } k

/-- `get`: read the segment's cache map, falling back to the monolithic
cache map only when the segment has no cache map at all (a JS `Map` object,
even empty, is truthy). -/
def get (st : Core) (s : Segment) (k : Key) : Option Value :=
  match alistGet st.topLevelCache s with
  | some sData => alistGet sData k
  | none =>
    match alistGet st.topLevelCache Segment.monolithic with
    | some sData => alistGet sData k
    | none => none

/-- `has`: true iff the segment itself has a cache entry for the key. -/
def has (st : Core) (s : Segment) (k : Key) : Bool :=
  match alistGet st.topLevelCache s with
  | none => false
  | some sData => (alistGet sData k).isSome

/-- `deleteSegmentData`: drop the segment's map from every layer, its cache
map and its registration (`_layers` is left untouched). -/
def deleteSegmentData (st : Core) (s : Segment) : Core :=
  { st with
    data := st.data.map (fun p => (p.1, alistDelete p.2 s))
    topLevelCache := alistDelete st.topLevelCache s
    segments := segRemove st.segments s }

/-- `get` written as a state transformer, recording that the source method
performs only non-mutating `Map.get` reads and never calls `_getLSData`. -/
def getOp (st : Core) (s : Segment) (k : Key) : Core × Option Value :=
  match alistGet st.topLevelCache s with
  | some sData => (st, alistGet sData k)
  | none =>
    match alistGet st.topLevelCache Segment.monolithic with
    | some sData => (st, alistGet sData k)
    | none => (st, none)

/-- `has` written as a state transformer, recording that the source method
performs only non-mutating `Map.get` / `Map.has` reads. -/
def hasOp (st : Core) (s : Segment) (k : Key) : Core × Bool :=
  match alistGet st.topLevelCache s with
  | none => (st, false)
  | some sData => (st, (alistGet sData k).isSome)

/-- The per-layer step of the specification's resolution algorithm: the
segment's own binding first, the monolithic binding second. -/
def layerHit (d : Data) (s : Segment) (k : Key) (l : Layer) : Option Value :=
  match lookupKey d l s k with
  | some v => some v
  | none => lookupKey d l Segment.monolithic k

/-- Walk a layer list and return the first hit. -/
def resolveOn (d : Data) (s : Segment) (k : Key) : List Layer → Option Value
  | [] => none
  | l :: rest =>
    match layerHit d s k l with
    | some v => some v
    | none => resolveOn d s k rest

/-- The specification's `resolve(segment, key)`: walk the raw store's layers
from highest to lowest priority, checking the segment's data then the
monolithic data at each layer, and return the first hit. -/
def resolve (st : Core) (s : Segment) (k : Key) : Option Value :=
  resolveOn st.data s k (sortDesc (st.data.map Prod.fst))

/-- The cache entry of a (segment, key) pair, read without any fallback. -/
def cacheVal (st : Core) (s : Segment) (k : Key) : Option Value :=
  match alistGet st.topLevelCache s with
  | some m => alistGet m k
  | none => none

/-- Decidable form of "the segment has its own value for the key at some
layer of the raw store" (layers outside the store hold no bindings). -/
def hasOwnValue (st : Core) (s : Segment) (k : Key) : Bool :=
  st.data.any (fun p => (alistGet ((alistGet p.2 s).getD []) k).isSome)

/-- States reachable from a freshly constructed core by the mutating
operations (`get` and `has` do not change the state). -/
inductive Reachable : Core → Prop
  | empty : Reachable Core.empty
  | set {st : Core} (l : Layer) (s : Segment) (k : Key) (v : Value) :
      Reachable st → Reachable (set st l s k v)
  | del {st : Core} (l : Layer) (s : Segment) (k : Key) :
      Reachable st → Reachable (delete st l s k)
  | delSeg {st : Core} (s : Segment) :
      Reachable st → Reachable (deleteSegmentData st s)

/-- Modelled from the spec: `setValidators` lives in `layered-storage.ts`,
which is not among the repository's staged source files (only its test,
`validation`, is). Spec: "Setting validators for a key a second time
without an explicit replace directive must fail (signal an error) rather
than silently append or overwrite". Validator functions are opaque here:
the registry stores, per key, the list of registered validator handles. -/
structure ValidatorRegistry where
  validators : List (Key × List Nat)
deriving DecidableEq, Repr

/-- Modelled from the spec: register the validators of a key, failing when
the key already has validators and no replace directive was given. -/
def setValidators (r : ValidatorRegistry) (k : Key) (vs : List Nat)
    (replace : Bool) : Except String ValidatorRegistry :=
  if replace = false ∧ (alistGet r.validators k).isSome then
    Except.error "Validators for this key were already set."
  else
    Except.ok { validators := alistSet r.validators k vs }

/-- Structural invariants maintained by every core operation: the layer list
mirrors the raw store's layer keys in descending order, all maps have
duplicate-free key lists, and every segment appearing in the raw store or
the cache is registered in `_segments`. -/
structure WF (st : Core) : Prop where
  layers_eq : st.layers = sortDesc (st.data.map Prod.fst)
  data_keys_nodup : (st.data.map Prod.fst).Nodup
  seg_keys_nodup : ∀ p ∈ st.data, (p.2.map Prod.fst).Nodup
  kv_nodup : ∀ p ∈ st.data, ∀ q ∈ p.2, (q.2.map Prod.fst).Nodup
  segments_nodup : st.segments.Nodup
  cache_keys_nodup : (st.topLevelCache.map Prod.fst).Nodup
  cache_kv_nodup : ∀ p ∈ st.topLevelCache, (p.2.map Prod.fst).Nodup
  cache_sub : ∀ p ∈ st.topLevelCache, p.1 ∈ st.segments
  data_sub : ∀ p ∈ st.data, ∀ q ∈ p.2, q.1 ∈ st.segments

/-- State evolution facts shared by all cache-refreshing steps: raw-store
lookups, the layer list and the raw layer keys are unchanged, and the
segment list only grows at the end. -/
def Preserves (st st' : Core) : Prop :=
  (∀ l s, lsData st'.data l s = lsData st.data l s) ∧
  st'.layers = st.layers ∧
  st'.data.map Prod.fst = st.data.map Prod.fst ∧
  st.segments.IsPrefix st'.segments

/-! ### Association-list lemmas -/

theorem alistGet_set_self {α β : Type} [DecidableEq α] (m : List (α × β)) (a : α) (v : β) :
    alistGet (alistSet m a v) a = some v := by
  induction m with
  | nil => simp [alistSet, alistGet]
  | cons p rest ih =>
    by_cases h : p.1 = a
    · simp [alistSet, alistGet, h]
    · simp [alistSet, alistGet, h, ih]

theorem alistGet_set_ne {α β : Type} [DecidableEq α] (m : List (α × β)) (a b : α) (v : β)
    (h : b ≠ a) : alistGet (alistSet m a v) b = alistGet m b := by
  induction m with
  | nil => simp [alistSet, alistGet, Ne.symm h]
  | cons p rest ih =>
    by_cases h1 : p.1 = a
    · subst h1
      simp [alistSet, alistGet, Ne.symm h]
    · by_cases h2 : p.1 = b
      · subst h2
        simp [alistSet, alistGet, h1]
      · simp [alistSet, alistGet, h1, h2, ih]

theorem alistGet_delete_ne {α β : Type} [DecidableEq α] (m : List (α × β)) (a b : α)
    (h : b ≠ a) : alistGet (alistDelete m a) b = alistGet m b := by
  induction m with
  | nil => simp [alistDelete]
  | cons p rest ih =>
    by_cases h1 : p.1 = a
    · subst h1
      simp [alistDelete, alistGet, Ne.symm h]
    · by_cases h2 : p.1 = b
      · subst h2
        simp [alistDelete, alistGet, h1]
      · simp [alistDelete, alistGet, h1, h2, ih]

theorem alistGet_eq_none_iff {α β : Type} [DecidableEq α] (m : List (α × β)) (a : α) :
    alistGet m a = none ↔ a ∉ m.map Prod.fst := by
  induction m with
  | nil => simp [alistGet]
  | cons p rest ih =>
    by_cases h : p.1 = a
    · simp [alistGet, h]
    · simp [alistGet, h, ih, Ne.symm h]

theorem alistGet_isSome_iff {α β : Type} [DecidableEq α] (m : List (α × β)) (a : α) :
    (alistGet m a).isSome ↔ a ∈ m.map Prod.fst := by
  constructor
  · intro h1
    by_contra h2
    rw [← alistGet_eq_none_iff] at h2
    simp [h2] at h1
  · intro h1
    rw [Option.isSome_iff_ne_none]
    intro h2
    exact (alistGet_eq_none_iff m a).mp h2 h1

theorem alistGet_delete_self {α β : Type} [DecidableEq α] (m : List (α × β)) (a : α)
    (h : (m.map Prod.fst).Nodup) : alistGet (alistDelete m a) a = none := by
  induction m with
  | nil => simp [alistDelete, alistGet]
  | cons p rest ih =>
    simp only [List.map_cons, List.nodup_cons] at h
    by_cases h1 : p.1 = a
    · have h3 : alistDelete (p :: rest) a = rest := by simp [alistDelete, h1]
      rw [h3, alistGet_eq_none_iff]
      exact h1 ▸ h.1
    · simp [alistDelete, alistGet, h1, ih h.2]

theorem alistDelete_of_not_mem {α β : Type} [DecidableEq α] (m : List (α × β)) (a : α)
    (h : a ∉ m.map Prod.fst) : alistDelete m a = m := by
  induction m with
  | nil => simp [alistDelete]
  | cons p rest ih =>
    rw [List.map_cons, List.mem_cons] at h
    push_neg at h
    simp [alistDelete, Ne.symm h.1, ih h.2]

theorem alistSet_keys_of_mem {α β : Type} [DecidableEq α] (m : List (α × β)) (a : α) (v : β)
    (h : a ∈ m.map Prod.fst) : (alistSet m a v).map Prod.fst = m.map Prod.fst := by
  induction m with
  | nil => simp at h
  | cons p rest ih =>
    simp only [List.map_cons, List.mem_cons] at h
    by_cases h1 : p.1 = a
    · simp [alistSet, h1]
    · have h2 : a ∈ rest.map Prod.fst := by
        rcases h with h | h
        · exact absurd h.symm h1
        · exact h
      simp [alistSet, h1, ih h2]

theorem alistSet_keys_of_not_mem {α β : Type} [DecidableEq α] (m : List (α × β)) (a : α) (v : β)
    (h : a ∉ m.map Prod.fst) : (alistSet m a v).map Prod.fst = m.map Prod.fst ++ [a] := by
  induction m with
  | nil => simp [alistSet]
  | cons p rest ih =>
    rw [List.map_cons, List.mem_cons] at h
    push_neg at h
    simp [alistSet, Ne.symm h.1, ih h.2]

theorem alistSet_keys_nodup {α β : Type} [DecidableEq α] (m : List (α × β)) (a : α) (v : β)
    (h : (m.map Prod.fst).Nodup) : ((alistSet m a v).map Prod.fst).Nodup := by
  by_cases h1 : a ∈ m.map Prod.fst
  · rw [alistSet_keys_of_mem m a v h1]; exact h
  · rw [alistSet_keys_of_not_mem m a v h1]
    simpa using List.Nodup.append h (List.nodup_singleton a) (by simpa using h1)

theorem alistDelete_keys_sublist {α β : Type} [DecidableEq α] (m : List (α × β)) (a : α) :
    ((alistDelete m a).map Prod.fst).Sublist (m.map Prod.fst) := by
  induction m with
  | nil => simp [alistDelete]
  | cons p rest ih =>
    by_cases h1 : p.1 = a
    · simp only [alistDelete, h1, if_pos rfl, List.map_cons]
      exact (List.sublist_cons_self _ _)
    · simp only [alistDelete, h1, if_neg h1, List.map_cons]
      exact ih.cons₂ _

theorem alistDelete_keys_nodup {α β : Type} [DecidableEq α] (m : List (α × β)) (a : α)
    (h : (m.map Prod.fst).Nodup) : ((alistDelete m a).map Prod.fst).Nodup :=
  (alistDelete_keys_sublist m a).nodup h

theorem mem_alistSet_keys {α β : Type} [DecidableEq α] (m : List (α × β)) (a b : α) (v : β) :
    b ∈ (alistSet m a v).map Prod.fst ↔ b ∈ m.map Prod.fst ∨ b = a := by
  by_cases h1 : a ∈ m.map Prod.fst
  · rw [alistSet_keys_of_mem m a v h1]
    constructor
    · exact Or.inl
    · rintro (h | rfl)
      · exact h
      · exact h1
  · rw [alistSet_keys_of_not_mem m a v h1]; simp

theorem alistGet_map_values {α β γ : Type} [DecidableEq α] (m : List (α × β)) (f : β → γ)
    (a : α) :
    alistGet (m.map (fun p => (p.1, f p.2))) a = (alistGet m a).map f := by
  induction m with
  | nil => simp [alistGet]
  | cons p rest ih =>
    by_cases h : p.1 = a <;> simp [alistGet, h, ih]

theorem mem_segAdd (l : List Segment) (s t : Segment) :
    t ∈ segAdd l s ↔ t ∈ l ∨ t = s := by
  unfold segAdd
  by_cases h : s ∈ l
  · simp only [if_pos h]
    constructor
    · exact Or.inl
    · rintro (h1 | rfl)
      · exact h1
      · exact h
  · simp [if_neg h]

theorem segAdd_nodup (l : List Segment) (s : Segment) (h : l.Nodup) :
    (segAdd l s).Nodup := by
  unfold segAdd
  by_cases h1 : s ∈ l
  · simpa [if_pos h1]
  · simp only [if_neg h1]
    simpa using List.Nodup.append h (List.nodup_singleton s) (by simpa using h1)

theorem segAdd_prefix (l : List Segment) (s : Segment) : l.IsPrefix (segAdd l s) := by
  unfold segAdd
  by_cases h1 : s ∈ l
  · simp [if_pos h1]
  · exact ⟨[s], by simp [if_neg h1]⟩

theorem segAdd_eq_or (l : List Segment) (s : Segment) :
    segAdd l s = l ∨ (segAdd l s = l ++ [s] ∧ s ∉ l) := by
  unfold segAdd
  by_cases h1 : s ∈ l
  · exact Or.inl (if_pos h1)
  · exact Or.inr ⟨if_neg h1, h1⟩

/-! ### Sorting lemmas for the layer list -/

theorem insertDesc_perm (x : Layer) (l : List Layer) :
    (insertDesc x l).Perm (x :: l) := by
  induction l with
  | nil => simp [insertDesc]
  | cons y ys ih =>
    by_cases h : y ≤ x
    · simp [insertDesc, h]
    · simp only [insertDesc, if_neg h]
      exact (ih.cons y).trans (List.Perm.swap x y ys)

theorem sortDesc_perm (l : List Layer) : (sortDesc l).Perm l := by
  induction l with
  | nil => simp [sortDesc]
  | cons x xs ih =>
    exact (insertDesc_perm x (sortDesc xs)).trans (ih.cons x)

theorem mem_sortDesc (l : List Layer) (a : Layer) : a ∈ sortDesc l ↔ a ∈ l :=
  (sortDesc_perm l).mem_iff

theorem sortDesc_nodup (l : List Layer) (h : l.Nodup) : (sortDesc l).Nodup :=
  ((sortDesc_perm l).nodup_iff).mpr h

theorem insertDesc_sorted (x : Layer) (l : List Layer)
    (h : l.Pairwise (fun a b => b ≤ a)) :
    (insertDesc x l).Pairwise (fun a b => b ≤ a) := by
  induction l with
  | nil => simp [insertDesc]
  | cons y ys ih =>
    rcases List.pairwise_cons.mp h with ⟨hy, hys⟩
    by_cases h1 : y ≤ x
    · simp only [insertDesc, if_pos h1]
      refine List.pairwise_cons.mpr ⟨?_, h⟩
      intro b hb
      rcases List.mem_cons.mp hb with rfl | hb
      · exact h1
      · exact le_trans (hy b hb) h1
    · simp only [insertDesc, if_neg h1]
      refine List.pairwise_cons.mpr ⟨?_, ih hys⟩
      intro b hb
      rcases List.mem_cons.mp ((insertDesc_perm x ys).mem_iff.mp hb) with rfl | hb
      · exact le_of_not_le h1
      · exact hy b hb

theorem sortDesc_sorted (l : List Layer) :
    (sortDesc l).Pairwise (fun a b => b ≤ a) := by
  induction l with
  | nil => simp [sortDesc]
  | cons x xs ih => exact insertDesc_sorted x (sortDesc xs) ih

theorem sortDesc_strict (l : List Layer) (h : l.Nodup) :
    (sortDesc l).Pairwise (fun a b => b < a) := by
  have h1 := sortDesc_sorted l
  have h2 : (sortDesc l).Pairwise (· ≠ ·) := sortDesc_nodup l h
  exact (h1.and h2).imp (fun hab => lt_of_le_of_ne hab.1 (Ne.symm hab.2))

/-! ### Well-formedness invariants of reachable states -/

theorem wf_empty : WF Core.empty := by
  constructor <;> simp [Core.empty, sortDesc]

theorem Preserves.refl (st : Core) : Preserves st st :=
  ⟨fun _ _ => rfl, rfl, rfl, List.prefix_rfl⟩

theorem Preserves.trans {s1 s2 s3 : Core} (h1 : Preserves s1 s2)
    (h2 : Preserves s2 s3) : Preserves s1 s3 :=
  ⟨fun l s => (h2.1 l s).trans (h1.1 l s), h2.2.1.trans h1.2.1,
    h2.2.2.1.trans h1.2.2.1, h1.2.2.2.trans h2.2.2.2⟩

theorem Preserves.lookup {st st' : Core} (h : Preserves st st') (l : Layer)
    (s : Segment) (k : Key) : lookupKey st'.data l s k = lookupKey st.data l s k := by
  unfold lookupKey
  rw [h.1 l s]

/-! ### Case analysis of `ensureLS` (the state effect of `_getLSData`) -/

theorem ensureLS_eq_self (st : Core) (l : Layer) (s : Segment)
    (h1 : l ∈ st.data.map Prod.fst) (h2 : s ∈ (lData st.data l).map Prod.fst) :
    ensureLS st l s = st := by
  rcases hld : alistGet st.data l with _ | ld
  · rw [alistGet_eq_none_iff] at hld
    exact absurd h1 hld
  · have hld2 : lData st.data l = ld := by rw [lData, hld]; rfl
    rw [hld2] at h2
    rcases hkv : alistGet ld s with _ | kv
    · rw [alistGet_eq_none_iff] at hkv
      exact absurd h2 hkv
    · simp only [ensureLS, hld, Option.getD_some, hkv]

theorem ensureLS_eq_newSeg (st : Core) (l : Layer) (s : Segment)
    (h1 : l ∈ st.data.map Prod.fst) (h2 : s ∉ (lData st.data l).map Prod.fst) :
    ensureLS st l s =
      { st with
        data := alistSet st.data l (alistSet (lData st.data l) s [])
        segments := segAdd st.segments s } := by
  rcases hld : alistGet st.data l with _ | ld
  · rw [alistGet_eq_none_iff] at hld
    exact absurd h1 hld
  · have hld2 : lData st.data l = ld := by rw [lData, hld]; rfl
    rw [hld2] at h2
    have hkv : alistGet ld s = none := (alistGet_eq_none_iff ld s).mpr h2
    simp only [ensureLS, hld, Option.getD_some, hkv, hld2]

theorem ensureLS_eq_newLayer (st : Core) (l : Layer) (s : Segment)
    (h1 : l ∉ st.data.map Prod.fst) :
    ensureLS st l s =
      { st with
        data := alistSet (alistSet st.data l []) l [(s, [])]
        layers := sortDesc ((alistSet st.data l []).map Prod.fst)
        segments := segAdd st.segments s } := by
  have hld : alistGet st.data l = none := (alistGet_eq_none_iff st.data l).mpr h1
  have hd : alistGet (alistSet st.data l ([] : SegMap)) l = some [] :=
    alistGet_set_self st.data l []
  simp only [ensureLS, hld, hd, Option.getD_some, alistGet, alistSet]

theorem alistGet_mem {α β : Type} [DecidableEq α] (m : List (α × β)) (a : α) (b : β)
    (h : alistGet m a = some b) : (a, b) ∈ m := by
  induction m with
  | nil => simp [alistGet] at h
  | cons p rest ih =>
    rcases p with ⟨pa, pb⟩
    by_cases h1 : pa = a
    · rw [alistGet, if_pos h1] at h
      obtain rfl := Option.some.inj h
      subst h1
      exact List.mem_cons_self _ _
    · rw [alistGet, if_neg h1] at h
      exact List.mem_cons_of_mem _ (ih h)

theorem mem_alistSet {α β : Type} [DecidableEq α] (m : List (α × β)) (a : α) (v : β)
    (p : α × β) (h : p ∈ alistSet m a v) : p ∈ m ∨ p = (a, v) := by
  induction m with
  | nil => simp [alistSet] at h; exact Or.inr h
  | cons q rest ih =>
    by_cases h1 : q.1 = a
    · rw [alistSet, if_pos h1] at h
      rcases List.mem_cons.mp h with rfl | h2
      · exact Or.inr rfl
      · exact Or.inl (List.mem_cons_of_mem q h2)
    · rw [alistSet, if_neg h1] at h
      rcases List.mem_cons.mp h with rfl | h2
      · exact Or.inl (List.mem_cons_self _ _)
      · rcases ih h2 with h3 | h3
        · exact Or.inl (List.mem_cons_of_mem q h3)
        · exact Or.inr h3

theorem mem_alistDelete {α β : Type} [DecidableEq α] (m : List (α × β)) (a : α)
    (p : α × β) (h : p ∈ alistDelete m a) : p ∈ m := by
  induction m with
  | nil => simp [alistDelete] at h
  | cons q rest ih =>
    by_cases h1 : q.1 = a
    · rw [alistDelete, if_pos h1] at h
      exact List.mem_cons_of_mem q h
    · rw [alistDelete, if_neg h1] at h
      rcases List.mem_cons.mp h with rfl | h2
      · exact List.mem_cons_self _ _
      · exact List.mem_cons_of_mem q (ih h2)

theorem lData_set_self (d : Data) (l : Layer) (m : SegMap) :
    lData (alistSet d l m) l = m := by
  rw [lData, alistGet_set_self]
  rfl

theorem lData_set_ne (d : Data) (l l' : Layer) (m : SegMap) (h : l' ≠ l) :
    lData (alistSet d l m) l' = lData d l' := by
  rw [lData, alistGet_set_ne _ _ _ _ h]
  rfl

theorem lsData_eq (d : Data) (l : Layer) (s : Segment) :
    lsData d l s = (alistGet (lData d l) s).getD [] := rfl

/-- `_getLSData` only ever adds empty maps: every raw-store lookup is
unchanged by it. -/
theorem ensureLS_lsData (st : Core) (l : Layer) (s : Segment) (l' : Layer) (s' : Segment) :
    lsData (ensureLS st l s).data l' s' = lsData st.data l' s' := by
  by_cases h1 : l ∈ st.data.map Prod.fst
  · by_cases h2 : s ∈ (lData st.data l).map Prod.fst
    · rw [ensureLS_eq_self st l s h1 h2]
    · rw [ensureLS_eq_newSeg st l s h1 h2]
      by_cases h3 : l' = l
      · subst h3
        rw [lsData_eq, lData_set_self, lsData_eq]
        by_cases h4 : s' = s
        · subst h4
          rw [alistGet_set_self, (alistGet_eq_none_iff _ s').mpr h2]
          rfl
        · rw [alistGet_set_ne _ _ _ _ h4]
      · rw [lsData_eq, lData_set_ne _ _ _ _ h3, lsData_eq]
  · rw [ensureLS_eq_newLayer st l s h1]
    by_cases h3 : l' = l
    · subst h3
      rw [lsData_eq, lData_set_self, lsData_eq]
      have h5 : lData st.data l' = [] := by
        rw [lData, (alistGet_eq_none_iff _ l').mpr h1]
        rfl
      rw [h5]
      by_cases h4 : s' = s
      · subst h4
        simp [alistGet]
      · simp [alistGet, Ne.symm h4]
    · rw [lsData_eq, lData_set_ne _ _ _ _ h3, lData_set_ne _ _ _ _ h3, lsData_eq]

theorem ensureLS_lookup (st : Core) (l : Layer) (s : Segment) (l' : Layer) (s' : Segment)
    (k : Key) : lookupKey (ensureLS st l s).data l' s' k = lookupKey st.data l' s' k := by
  unfold lookupKey
  rw [ensureLS_lsData]

theorem ensureLS_cache (st : Core) (l : Layer) (s : Segment) :
    (ensureLS st l s).topLevelCache = st.topLevelCache := by
  by_cases h1 : l ∈ st.data.map Prod.fst
  · by_cases h2 : s ∈ (lData st.data l).map Prod.fst
    · rw [ensureLS_eq_self st l s h1 h2]
    · rw [ensureLS_eq_newSeg st l s h1 h2]
  · rw [ensureLS_eq_newLayer st l s h1]

theorem ensureLS_segments_or (st : Core) (l : Layer) (s : Segment) :
    (ensureLS st l s).segments = st.segments ∨
      (ensureLS st l s).segments = segAdd st.segments s := by
  by_cases h1 : l ∈ st.data.map Prod.fst
  · by_cases h2 : s ∈ (lData st.data l).map Prod.fst
    · rw [ensureLS_eq_self st l s h1 h2]
      exact Or.inl rfl
    · rw [ensureLS_eq_newSeg st l s h1 h2]
      exact Or.inr rfl
  · rw [ensureLS_eq_newLayer st l s h1]
    exact Or.inr rfl

theorem ensureLS_segments_prefix (st : Core) (l : Layer) (s : Segment) :
    st.segments.IsPrefix (ensureLS st l s).segments := by
  rcases ensureLS_segments_or st l s with h | h
  · rw [h]
  · rw [h]
    exact segAdd_prefix _ _

theorem ensureLS_keys_of_mem (st : Core) (l : Layer) (s : Segment)
    (h : l ∈ st.data.map Prod.fst) :
    (ensureLS st l s).layers = st.layers ∧
      (ensureLS st l s).data.map Prod.fst = st.data.map Prod.fst := by
  by_cases h2 : s ∈ (lData st.data l).map Prod.fst
  · rw [ensureLS_eq_self st l s h h2]
    exact ⟨rfl, rfl⟩
  · rw [ensureLS_eq_newSeg st l s h h2]
    exact ⟨rfl, alistSet_keys_of_mem _ _ _ h⟩

theorem ensureLS_mem_layer (st : Core) (l : Layer) (s : Segment) :
    l ∈ (ensureLS st l s).data.map Prod.fst := by
  by_cases h1 : l ∈ st.data.map Prod.fst
  · rw [(ensureLS_keys_of_mem st l s h1).2]
    exact h1
  · rw [ensureLS_eq_newLayer st l s h1]
    show l ∈ (alistSet (alistSet st.data l []) l [(s, [])]).map Prod.fst
    rw [mem_alistSet_keys]
    exact Or.inr rfl

theorem ensureLS_mem_seg (st : Core) (l : Layer) (s : Segment) :
    s ∈ (lData (ensureLS st l s).data l).map Prod.fst := by
  by_cases h1 : l ∈ st.data.map Prod.fst
  · by_cases h2 : s ∈ (lData st.data l).map Prod.fst
    · rw [ensureLS_eq_self st l s h1 h2]
      exact h2
    · rw [ensureLS_eq_newSeg st l s h1 h2]
      show s ∈ (lData (alistSet st.data l (alistSet (lData st.data l) s [])) l).map Prod.fst
      rw [lData_set_self, mem_alistSet_keys]
      exact Or.inr rfl
  · rw [ensureLS_eq_newLayer st l s h1]
    show s ∈ (lData (alistSet (alistSet st.data l []) l [(s, [])]) l).map Prod.fst
    rw [lData_set_self]
    simp

theorem lData_mem (d : Data) (l : Layer) (h : l ∈ d.map Prod.fst) : (l, lData d l) ∈ d := by
  rcases hg : alistGet d l with _ | ld
  · rw [alistGet_eq_none_iff] at hg
    exact absurd h hg
  · rw [lData, hg]
    exact alistGet_mem _ _ _ hg

theorem WF.layers_mem {st : Core} (hw : WF st) (l : Layer) (h : l ∈ st.layers) :
    l ∈ st.data.map Prod.fst := by
  rw [hw.layers_eq] at h
  exact (mem_sortDesc _ _).mp h

theorem cache_getD_nodup (st : Core) (hw : WF st) (s : Segment) :
    ((((alistGet st.topLevelCache s).getD []) : KVMap).map Prod.fst).Nodup := by
  rcases hg : alistGet st.topLevelCache s with _ | m
  · simp
  · rw [Option.getD_some]
    exact hw.cache_kv_nodup (s, m) (alistGet_mem _ _ _ hg)

theorem ensureLS_segments_of_mem (st : Core) (l : Layer) (s : Segment)
    (hs : s ∈ st.segments) : (ensureLS st l s).segments = st.segments := by
  rcases ensureLS_segments_or st l s with h | h
  · exact h
  · rw [h, segAdd, if_pos hs]

theorem ensureLS_preserves (st : Core) (l : Layer) (s : Segment)
    (h1 : l ∈ st.data.map Prod.fst) : Preserves st (ensureLS st l s) :=
  ⟨ensureLS_lsData st l s, (ensureLS_keys_of_mem st l s h1).1,
    (ensureLS_keys_of_mem st l s h1).2, ensureLS_segments_prefix st l s⟩

theorem ensureLS_wf (st : Core) (l : Layer) (s : Segment) (hw : WF st) :
    WF (ensureLS st l s) := by
  by_cases h1 : l ∈ st.data.map Prod.fst
  · by_cases h2 : s ∈ (lData st.data l).map Prod.fst
    · rw [ensureLS_eq_self st l s h1 h2]
      exact hw
    · rw [ensureLS_eq_newSeg st l s h1 h2]
      have hld : (l, lData st.data l) ∈ st.data := lData_mem st.data l h1
      constructor
      · show st.layers = sortDesc ((alistSet st.data l _).map Prod.fst)
        rw [alistSet_keys_of_mem _ _ _ h1]
        exact hw.layers_eq
      · show ((alistSet st.data l _).map Prod.fst).Nodup
        rw [alistSet_keys_of_mem _ _ _ h1]
        exact hw.data_keys_nodup
      · intro p hp
        rcases mem_alistSet _ _ _ _ hp with hp | rfl
        · exact hw.seg_keys_nodup p hp
        · exact alistSet_keys_nodup _ _ _ (hw.seg_keys_nodup _ hld)
      · intro p hp q hq
        rcases mem_alistSet _ _ _ _ hp with hp | rfl
        · exact hw.kv_nodup p hp q hq
        · rcases mem_alistSet _ _ _ _ hq with hq | rfl
          · exact hw.kv_nodup _ hld q hq
          · simp
      · exact segAdd_nodup _ _ hw.segments_nodup
      · exact hw.cache_keys_nodup
      · exact hw.cache_kv_nodup
      · intro p hp
        exact (mem_segAdd _ _ _).mpr (Or.inl (hw.cache_sub p hp))
      · intro p hp q hq
        rcases mem_alistSet _ _ _ _ hp with hp | rfl
        · exact (mem_segAdd _ _ _).mpr (Or.inl (hw.data_sub p hp q hq))
        · rcases mem_alistSet _ _ _ _ hq with hq | rfl
          · exact (mem_segAdd _ _ _).mpr (Or.inl (hw.data_sub _ hld q hq))
          · exact (mem_segAdd _ _ _).mpr (Or.inr rfl)
  · rw [ensureLS_eq_newLayer st l s h1]
    have hmem : l ∈ (alistSet st.data l ([] : SegMap)).map Prod.fst :=
      (mem_alistSet_keys _ _ _ _).mpr (Or.inr rfl)
    have hkeys : (alistSet (alistSet st.data l ([] : SegMap)) l [(s, [])]).map Prod.fst =
        (alistSet st.data l ([] : SegMap)).map Prod.fst :=
      alistSet_keys_of_mem _ _ _ hmem
    have hkeys2 : (alistSet st.data l ([] : SegMap)).map Prod.fst =
        st.data.map Prod.fst ++ [l] := alistSet_keys_of_not_mem _ _ _ h1
    constructor
    · show sortDesc ((alistSet st.data l []).map Prod.fst) =
        sortDesc ((alistSet (alistSet st.data l []) l [(s, [])]).map Prod.fst)
      rw [hkeys]
    · show ((alistSet (alistSet st.data l []) l [(s, [])]).map Prod.fst).Nodup
      rw [hkeys, hkeys2]
      simpa using List.Nodup.append hw.data_keys_nodup (List.nodup_singleton l)
        (by simpa using h1)
    · intro p hp
      rcases mem_alistSet _ _ _ _ hp with hp | rfl
      · rcases mem_alistSet _ _ _ _ hp with hp | rfl
        · exact hw.seg_keys_nodup p hp
        · simp
      · simp
    · intro p hp q hq
      rcases mem_alistSet _ _ _ _ hp with hp | rfl
      · rcases mem_alistSet _ _ _ _ hp with hp | rfl
        · exact hw.kv_nodup p hp q hq
        · simp at hq
      · rcases List.mem_singleton.mp hq with rfl
        simp
    · exact segAdd_nodup _ _ hw.segments_nodup
    · exact hw.cache_keys_nodup
    · exact hw.cache_kv_nodup
    · intro p hp
      exact (mem_segAdd _ _ _).mpr (Or.inl (hw.cache_sub p hp))
    · intro p hp q hq
      rcases mem_alistSet _ _ _ _ hp with hp | rfl
      · rcases mem_alistSet _ _ _ _ hp with hp | rfl
        · exact (mem_segAdd _ _ _).mpr (Or.inl (hw.data_sub p hp q hq))
        · simp at hq
      · rcases List.mem_singleton.mp hq with rfl
        exact (mem_segAdd _ _ _).mpr (Or.inr rfl)

theorem cacheCommit_preserves (st : Core) (s : Segment) (k : Key) (v : Value) :
    Preserves st (cacheCommit st s k v) :=
  ⟨fun _ _ => rfl, rfl, rfl, List.prefix_rfl⟩

theorem cacheCommit_wf (st : Core) (s : Segment) (k : Key) (v : Value) (hw : WF st)
    (hs : s ∈ st.segments) : WF (cacheCommit st s k v) := by
  constructor
  · exact hw.layers_eq
  · exact hw.data_keys_nodup
  · exact hw.seg_keys_nodup
  · exact hw.kv_nodup
  · exact hw.segments_nodup
  · exact alistSet_keys_nodup _ _ _ hw.cache_keys_nodup
  · intro p hp
    rcases mem_alistSet _ _ _ _ hp with hp | rfl
    · exact hw.cache_kv_nodup p hp
    · exact alistSet_keys_nodup _ _ _ (cache_getD_nodup st hw s)
  · intro p hp
    rcases mem_alistSet _ _ _ _ hp with hp | rfl
    · exact hw.cache_sub p hp
    · exact hs
  · exact hw.data_sub

theorem layerHit_congr (d d' : Data) (s : Segment) (k : Key) (l : Layer)
    (h : ∀ l0 s0, lsData d' l0 s0 = lsData d l0 s0) :
    layerHit d' s k l = layerHit d s k l := by
  unfold layerHit lookupKey
  rw [h l s, h l Segment.monolithic]

theorem resolveOn_congr (d d' : Data) (s : Segment) (k : Key) (LS : List Layer)
    (h : ∀ l0 s0, lsData d' l0 s0 = lsData d l0 s0) :
    resolveOn d' s k LS = resolveOn d s k LS := by
  induction LS with
  | nil => rfl
  | cons l rest ih =>
    unfold resolveOn
    rw [layerHit_congr d d' s k l h, ih]

/-- Full specification of the layer loop of `_updateCache` for one segment:
it preserves well-formedness and all raw lookups, can only append the
monolithic sentinel to the segment list, and writes exactly the first
resolved hit of the walked layer list into the segment's cache map (leaving
the cache untouched when there is no hit). -/
theorem cacheSearch_spec (k : Key) (s : Segment) (LS : List Layer) (st : Core)
    (hw : WF st) (hs : s ∈ st.segments) (hL : ∀ l ∈ LS, l ∈ st.data.map Prod.fst) :
    Preserves st (cacheSearch k s LS st) ∧
    WF (cacheSearch k s LS st) ∧
    ((cacheSearch k s LS st).segments = st.segments ∨
      ((cacheSearch k s LS st).segments = st.segments ++ [Segment.monolithic] ∧
        Segment.monolithic ∉ st.segments)) ∧
    (∀ v, resolveOn st.data s k LS = some v →
      (cacheSearch k s LS st).topLevelCache =
        alistSet st.topLevelCache s
          (alistSet ((alistGet st.topLevelCache s).getD []) k v)) ∧
    (resolveOn st.data s k LS = none →
      (cacheSearch k s LS st).topLevelCache = st.topLevelCache) := by
  induction LS generalizing st with
  | nil =>
    refine ⟨Preserves.refl st, hw, Or.inl rfl, ?_, fun _ => rfl⟩
    intro v hv
    simp [resolveOn] at hv
  | cons l rest ih =>
    have hl : l ∈ st.data.map Prod.fst := hL l (List.mem_cons_self _ _)
    have pA : Preserves st (ensureLS st l s) := ensureLS_preserves st l s hl
    have wA : WF (ensureLS st l s) := ensureLS_wf st l s hw
    have sA : (ensureLS st l s).segments = st.segments :=
      ensureLS_segments_of_mem st l s hs
    have cA : (ensureLS st l s).topLevelCache = st.topLevelCache :=
      ensureLS_cache st l s
    have hv1 : alistGet (getLSData st l s).2 k = lookupKey st.data l s k := by
      show alistGet (lsData (ensureLS st l s).data l s) k = _
      have : alistGet (lsData (ensureLS st l s).data l s) k =
          lookupKey (ensureLS st l s).data l s k := rfl
      rw [this, ensureLS_lookup]
    rcases hvs : lookupKey st.data l s k with _ | v
    · -- the segment itself has no binding at this layer: check the monolithic map
      have hlA : l ∈ (ensureLS st l s).data.map Prod.fst := by
        rw [pA.2.2.1]
        exact hl
      have pB : Preserves st (ensureLS (ensureLS st l s) l Segment.monolithic) :=
        pA.trans (ensureLS_preserves _ l Segment.monolithic hlA)
      have wB : WF (ensureLS (ensureLS st l s) l Segment.monolithic) :=
        ensureLS_wf _ l Segment.monolithic wA
      have cB : (ensureLS (ensureLS st l s) l Segment.monolithic).topLevelCache =
          st.topLevelCache := by
        rw [ensureLS_cache, cA]
      have sB : (ensureLS (ensureLS st l s) l Segment.monolithic).segments = st.segments ∨
          ((ensureLS (ensureLS st l s) l Segment.monolithic).segments =
              st.segments ++ [Segment.monolithic] ∧
            Segment.monolithic ∉ st.segments) := by
        rcases ensureLS_segments_or (ensureLS st l s) l Segment.monolithic with h | h
        · left
          rw [h, sA]
        · by_cases hm : Segment.monolithic ∈ (ensureLS st l s).segments
          · left
            rw [h, segAdd, if_pos hm, sA]
          · right
            rw [sA] at hm
            rw [h, segAdd, sA, if_neg hm]
            exact ⟨rfl, hm⟩
      have hv2 : alistGet (getLSData (getLSData st l s).1 l Segment.monolithic).2 k =
          lookupKey st.data l Segment.monolithic k := by
        show alistGet
          (lsData (ensureLS (ensureLS st l s) l Segment.monolithic).data l
            Segment.monolithic) k = _
        have : alistGet
            (lsData (ensureLS (ensureLS st l s) l Segment.monolithic).data l
              Segment.monolithic) k =
            lookupKey (ensureLS (ensureLS st l s) l Segment.monolithic).data l
              Segment.monolithic k := rfl
        rw [this, pB.lookup]
      have hhit : layerHit st.data s k l = lookupKey st.data l Segment.monolithic k := by
        unfold layerHit
        rw [hvs]
      have hres : resolveOn st.data s k (l :: rest) =
          match lookupKey st.data l Segment.monolithic k with
          | some v => some v
          | none => resolveOn st.data s k rest := by
        show (match layerHit st.data s k l with
          | some v => some v
          | none => resolveOn st.data s k rest) = _
        rw [hhit]
      rcases hvm : lookupKey st.data l Segment.monolithic k with _ | v
      · -- no hit at this layer: recurse on the remaining layers
        have hcs : cacheSearch k s (l :: rest) st =
            cacheSearch k s rest (ensureLS (ensureLS st l s) l Segment.monolithic) := by
          show (match alistGet (getLSData st l s).2 k with
            | some v => cacheCommit (getLSData st l s).1 s k v
            | none =>
              match alistGet (getLSData (getLSData st l s).1 l Segment.monolithic).2 k with
              | some v =>
                cacheCommit (getLSData (getLSData st l s).1 l Segment.monolithic).1 s k v
              | none =>
                cacheSearch k s rest
                  (getLSData (getLSData st l s).1 l Segment.monolithic).1) = _
          rw [hv1, hvs, hv2, hvm]
          rfl
        have hsB : s ∈ (ensureLS (ensureLS st l s) l Segment.monolithic).segments :=
          pB.2.2.2.subset hs
        have hLB : ∀ l0 ∈ rest,
            l0 ∈ (ensureLS (ensureLS st l s) l Segment.monolithic).data.map Prod.fst := by
          intro l0 hl0
          rw [pB.2.2.1]
          exact hL l0 (List.mem_cons_of_mem _ hl0)
        obtain ⟨P2, W2, S2, A2, B2⟩ := ih _ wB hsB hLB
        have hresB : resolveOn (ensureLS (ensureLS st l s) l Segment.monolithic).data s k
            rest = resolveOn st.data s k rest :=
          resolveOn_congr _ _ s k rest pB.1
        refine ⟨?_, ?_, ?_, ?_, ?_⟩
        · rw [hcs]
          exact pB.trans P2
        · rw [hcs]
          exact W2
        · rw [hcs]
          rcases sB with h | ⟨h, hnm⟩
          · rcases S2 with h2 | ⟨h2, hnm2⟩
            · left
              rw [h2, h]
            · right
              rw [h2, h]
              rw [h] at hnm2
              exact ⟨rfl, hnm2⟩
          · rcases S2 with h2 | ⟨h2, hnm2⟩
            · right
              rw [h2, h]
              exact ⟨rfl, hnm⟩
            · exfalso
              apply hnm2
              rw [h]
              simp
        · intro v hv
          rw [hres, hvm] at hv
          rw [hcs, A2 v (hresB.trans hv), cB]
        · intro hv
          rw [hres, hvm] at hv
          rw [hcs, B2 (hresB.trans hv), cB]
      · -- hit in the monolithic map at this layer
        have hcs : cacheSearch k s (l :: rest) st =
            cacheCommit (ensureLS (ensureLS st l s) l Segment.monolithic) s k v := by
          show (match alistGet (getLSData st l s).2 k with
            | some v => cacheCommit (getLSData st l s).1 s k v
            | none =>
              match alistGet (getLSData (getLSData st l s).1 l Segment.monolithic).2 k with
              | some v =>
                cacheCommit (getLSData (getLSData st l s).1 l Segment.monolithic).1 s k v
              | none =>
                cacheSearch k s rest
                  (getLSData (getLSData st l s).1 l Segment.monolithic).1) = _
          rw [hv1, hvs, hv2, hvm]
          rfl
        have hsB : s ∈ (ensureLS (ensureLS st l s) l Segment.monolithic).segments :=
          pB.2.2.2.subset hs
        refine ⟨?_, ?_, ?_, ?_, ?_⟩
        · rw [hcs]
          exact pB.trans (cacheCommit_preserves _ s k v)
        · rw [hcs]
          exact cacheCommit_wf _ s k v wB hsB
        · rw [hcs]
          show (ensureLS (ensureLS st l s) l Segment.monolithic).segments = _ ∨ _
          exact sB
        · intro v0 hv0
          rw [hres, hvm] at hv0
          obtain rfl := Option.some.inj hv0
          rw [hcs]
          show alistSet (ensureLS (ensureLS st l s) l Segment.monolithic).topLevelCache s
              (alistSet
                ((alistGet (ensureLS (ensureLS st l s) l
                    Segment.monolithic).topLevelCache s).getD []) k v) = _
          rw [cB]
        · intro hv0
          rw [hres, hvm] at hv0
          exact absurd hv0 (by simp)
    · -- hit in the segment's own map at this layer
      have hcs : cacheSearch k s (l :: rest) st = cacheCommit (ensureLS st l s) s k v := by
        show (match alistGet (getLSData st l s).2 k with
          | some v => cacheCommit (getLSData st l s).1 s k v
          | none =>
            match alistGet (getLSData (getLSData st l s).1 l Segment.monolithic).2 k with
            | some v =>
              cacheCommit (getLSData (getLSData st l s).1 l Segment.monolithic).1 s k v
            | none =>
              cacheSearch k s rest
                (getLSData (getLSData st l s).1 l Segment.monolithic).1) = _
        rw [hv1, hvs]
        rfl
      have hres : resolveOn st.data s k (l :: rest) = some v := by
        show (match layerHit st.data s k l with
          | some v0 => some v0
          | none => resolveOn st.data s k rest) = some v
        rw [show layerHit st.data s k l = some v from by unfold layerHit; rw [hvs]]
      refine ⟨?_, ?_, ?_, ?_, ?_⟩
      · rw [hcs]
        exact pA.trans (cacheCommit_preserves _ s k v)
      · rw [hcs]
        exact cacheCommit_wf _ s k v wA (sA ▸ hs)
      · rw [hcs]
        show (ensureLS st l s).segments = _ ∨ _
        rw [sA]
        exact Or.inl rfl
      · intro v0 hv0
        rw [hres] at hv0
        obtain rfl := Option.some.inj hv0
        rw [hcs]
        show alistSet (ensureLS st l s).topLevelCache s
            (alistSet ((alistGet (ensureLS st l s).topLevelCache s).getD []) k v) = _
        rw [cA]
      · intro hv0
        rw [hres] at hv0
        exact absurd hv0 (by simp)

theorem segs_extend_combine {a b c : List Segment}
    (h1 : b = a ∨ (b = a ++ [Segment.monolithic] ∧ Segment.monolithic ∉ a))
    (h2 : c = b ∨ (c = b ++ [Segment.monolithic] ∧ Segment.monolithic ∉ b)) :
    c = a ∨ (c = a ++ [Segment.monolithic] ∧ Segment.monolithic ∉ a) := by
  rcases h1 with rfl | ⟨h1e, h1n⟩
  · exact h2
  · rcases h2 with rfl | ⟨h2e, h2n⟩
    · exact Or.inr ⟨h1e, h1n⟩
    · exfalso
      apply h2n
      rw [h1e]
      simp

/-- Specification of one `segmentsLoop` iteration of `_updateCache`: after
it, the segment's cache map exists and its entry for the key is exactly the
resolution over the current layer list, while every other segment's cache
map is untouched. -/
theorem updateCacheSeg_spec (st : Core) (k : Key) (s : Segment) (hw : WF st)
    (hs : s ∈ st.segments) :
    Preserves st (updateCacheSeg st k s) ∧
    WF (updateCacheSeg st k s) ∧
    ((updateCacheSeg st k s).segments = st.segments ∨
      ((updateCacheSeg st k s).segments = st.segments ++ [Segment.monolithic] ∧
        Segment.monolithic ∉ st.segments)) ∧
    (∃ m, alistGet (updateCacheSeg st k s).topLevelCache s = some m ∧
      alistGet m k = resolveOn st.data s k st.layers) ∧
    (∀ t, t ≠ s → alistGet (updateCacheSeg st k s).topLevelCache t =
      alistGet st.topLevelCache t) := by
  have hset : updateCacheSeg st k s =
      cacheSearch k s st.layers
        { st with
          topLevelCache :=
            alistSet st.topLevelCache s
              (alistDelete ((alistGet st.topLevelCache s).getD []) k) } := rfl
  have hw1 : WF { st with
      topLevelCache :=
        alistSet st.topLevelCache s
          (alistDelete ((alistGet st.topLevelCache s).getD []) k) } := by
    constructor
    · exact hw.layers_eq
    · exact hw.data_keys_nodup
    · exact hw.seg_keys_nodup
    · exact hw.kv_nodup
    · exact hw.segments_nodup
    · exact alistSet_keys_nodup _ _ _ hw.cache_keys_nodup
    · intro p hp
      rcases mem_alistSet _ _ _ _ hp with hp | rfl
      · exact hw.cache_kv_nodup p hp
      · exact alistDelete_keys_nodup _ _ (cache_getD_nodup st hw s)
    · intro p hp
      rcases mem_alistSet _ _ _ _ hp with hp | rfl
      · exact hw.cache_sub p hp
      · exact hs
    · exact hw.data_sub
  have hL1 : ∀ l ∈ st.layers, l ∈ st.data.map Prod.fst := fun l hl => hw.layers_mem l hl
  obtain ⟨P, W, S, A, B⟩ := cacheSearch_spec k s st.layers _ hw1 hs hL1
  have hP1 : Preserves st { st with
      topLevelCache :=
        alistSet st.topLevelCache s
          (alistDelete ((alistGet st.topLevelCache s).getD []) k) } :=
    ⟨fun _ _ => rfl, rfl, rfl, List.prefix_rfl⟩
  refine ⟨?_, ?_, ?_, ?_, ?_⟩
  · rw [hset]
    exact hP1.trans P
  · rw [hset]
    exact W
  · rw [hset]
    exact S
  · rw [hset]
    rcases hres : resolveOn st.data s k st.layers with _ | v
    · refine ⟨alistDelete ((alistGet st.topLevelCache s).getD []) k, ?_, ?_⟩
      · rw [B hres]
        exact alistGet_set_self _ _ _
      · exact alistGet_delete_self _ _ (cache_getD_nodup st hw s)
    · refine ⟨alistSet (alistDelete ((alistGet st.topLevelCache s).getD []) k) k v, ?_, ?_⟩
      · rw [A v hres]
        have hself : alistGet
            (alistSet st.topLevelCache s
              (alistDelete ((alistGet st.topLevelCache s).getD []) k)) s =
            some (alistDelete ((alistGet st.topLevelCache s).getD []) k) :=
          alistGet_set_self _ _ _
        rw [hself, Option.getD_some]
        exact alistGet_set_self _ _ _
      · exact alistGet_set_self _ _ _
  · intro t ht
    rw [hset]
    rcases hres : resolveOn st.data s k st.layers with _ | v
    · rw [B hres]
      exact alistGet_set_ne _ _ _ _ ht
    · rw [A v hres, alistGet_set_ne _ _ _ _ ht, alistGet_set_ne _ _ _ _ ht]

/-- Specification of the `segmentsLoop` fold of `_updateCache` over a
duplicate-free list of already-registered segments. -/
theorem foldUC_spec (k : Key) (segs : List Segment) (st : Core) (hw : WF st)
    (hnd : segs.Nodup) (hsub : ∀ s ∈ segs, s ∈ st.segments) :
    Preserves st (segs.foldl (fun acc s => updateCacheSeg acc k s) st) ∧
    WF (segs.foldl (fun acc s => updateCacheSeg acc k s) st) ∧
    ((segs.foldl (fun acc s => updateCacheSeg acc k s) st).segments = st.segments ∨
      ((segs.foldl (fun acc s => updateCacheSeg acc k s) st).segments =
          st.segments ++ [Segment.monolithic] ∧
        Segment.monolithic ∉ st.segments)) ∧
    (∀ s ∈ segs, ∃ m,
      alistGet (segs.foldl (fun acc s => updateCacheSeg acc k s) st).topLevelCache s =
        some m ∧ alistGet m k = resolveOn st.data s k st.layers) ∧
    (∀ t, t ∉ segs →
      alistGet (segs.foldl (fun acc s => updateCacheSeg acc k s) st).topLevelCache t =
        alistGet st.topLevelCache t) := by
  induction segs generalizing st with
  | nil =>
    refine ⟨Preserves.refl st, hw, Or.inl rfl, ?_, fun t _ => rfl⟩
    intro s hs
    simp at hs
  | cons s rest ih =>
    obtain ⟨P1, W1, S1, ⟨m1, hm1, hm1k⟩, O1⟩ :=
      updateCacheSeg_spec st k s hw (hsub s (List.mem_cons_self _ _))
    have hnd2 : rest.Nodup := hnd.of_cons
    have hns : s ∉ rest := (List.nodup_cons.mp hnd).1
    have hsub2 : ∀ t ∈ rest, t ∈ (updateCacheSeg st k s).segments := fun t ht =>
      P1.2.2.2.subset (hsub t (List.mem_cons_of_mem _ ht))
    obtain ⟨P2, W2, S2, A2, B2⟩ := ih (updateCacheSeg st k s) W1 hnd2 hsub2
    have hfold : (s :: rest).foldl (fun acc s => updateCacheSeg acc k s) st =
        rest.foldl (fun acc s => updateCacheSeg acc k s) (updateCacheSeg st k s) := rfl
    refine ⟨?_, ?_, ?_, ?_, ?_⟩
    · rw [hfold]
      exact P1.trans P2
    · rw [hfold]
      exact W2
    · rw [hfold]
      exact segs_extend_combine S1 S2
    · intro t ht
      rw [hfold]
      rcases List.mem_cons.mp ht with rfl | ht
      · refine ⟨m1, ?_, hm1k⟩
        rw [B2 t hns]
        exact hm1
      · obtain ⟨m2, hm2, hm2k⟩ := A2 t ht
        refine ⟨m2, hm2, ?_⟩
        rw [hm2k, P1.2.1, resolveOn_congr _ _ t k _ P1.1]
    · intro t ht
      rw [List.mem_cons] at ht
      push_neg at ht
      rw [hfold, B2 t ht.2, O1 t ht.1]

/-- Full specification of `_updateCache`: it preserves well-formedness and
every raw lookup, can only register the monolithic sentinel, refreshes the
cache entry of the mutated key for every segment known afterwards to the
resolved value, and leaves every other cache map untouched. -/
theorem updateCache_spec (st : Core) (k : Key) (hw : WF st) :
    Preserves st (updateCache st k) ∧
    WF (updateCache st k) ∧
    ((updateCache st k).segments = st.segments ∨
      ((updateCache st k).segments = st.segments ++ [Segment.monolithic] ∧
        Segment.monolithic ∉ st.segments)) ∧
    (∀ s ∈ (updateCache st k).segments, ∃ m,
      alistGet (updateCache st k).topLevelCache s = some m ∧
      alistGet m k = resolveOn st.data s k st.layers) ∧
    (∀ t, t ∉ (updateCache st k).segments →
      alistGet (updateCache st k).topLevelCache t = alistGet st.topLevelCache t) := by
  obtain ⟨P1, W1, S1, A1, B1⟩ :=
    foldUC_spec k st.segments st hw hw.segments_nodup (fun _ hs => hs)
  by_cases hc : Segment.monolithic ∈
      (st.segments.foldl (fun acc s => updateCacheSeg acc k s) st).segments ∧
      Segment.monolithic ∉ st.segments
  · have hup : updateCache st k =
        updateCacheSeg (st.segments.foldl (fun acc s => updateCacheSeg acc k s) st) k
          Segment.monolithic := by
      show (if _ ∧ _ then _ else _) = _
      rw [if_pos hc]
    obtain ⟨P2, W2, S2, ⟨m2, hm2, hm2k⟩, O2⟩ :=
      updateCacheSeg_spec _ k Segment.monolithic W1 hc.1
    have hseg2 : (updateCacheSeg
        (st.segments.foldl (fun acc s => updateCacheSeg acc k s) st) k
          Segment.monolithic).segments =
        (st.segments.foldl (fun acc s => updateCacheSeg acc k s) st).segments := by
      rcases S2 with h | ⟨_, hn⟩
      · exact h
      · exact absurd hc.1 hn
    refine ⟨?_, ?_, ?_, ?_, ?_⟩
    · rw [hup]
      exact P1.trans P2
    · rw [hup]
      exact W2
    · rw [hup, hseg2]
      exact S1
    · intro t ht
      rw [hup] at ht ⊢
      rw [hseg2] at ht
      by_cases hts : t = Segment.monolithic
      · subst hts
        refine ⟨m2, hm2, ?_⟩
        rw [hm2k, P1.2.1, resolveOn_congr _ _ _ k _ P1.1]
      · obtain ⟨m, hm, hmk⟩ := A1 t (by
          rcases S1 with h | ⟨h, _⟩
          · rw [h] at ht
            exact ht
          · rw [h] at ht
            rcases List.mem_append.mp ht with ht | ht
            · exact ht
            · exact absurd (List.mem_singleton.mp ht) hts)
        refine ⟨m, ?_, hmk⟩
        rw [O2 t hts]
        exact hm
    · intro t ht
      rw [hup] at ht ⊢
      rw [hseg2] at ht
      have hts : t ≠ Segment.monolithic := fun h => ht (h ▸ hc.1)
      have htn : t ∉ st.segments := fun h => ht (P1.2.2.2.subset h)
      rw [O2 t hts, B1 t htn]
  · have hup : updateCache st k =
        st.segments.foldl (fun acc s => updateCacheSeg acc k s) st := by
      show (if _ ∧ _ then _ else _) = _
      rw [if_neg hc]
    refine ⟨?_, ?_, ?_, ?_, ?_⟩
    · rw [hup]
      exact P1
    · rw [hup]
      exact W1
    · rw [hup]
      exact S1
    · intro t ht
      rw [hup] at ht ⊢
      have hts : t ∈ st.segments := by
        rcases S1 with h | ⟨h, hn⟩
        · rw [h] at ht
          exact ht
        · rw [h] at ht
          rcases List.mem_append.mp ht with ht | ht
          · exact ht
          · exfalso
            apply hc
            refine ⟨?_, hn⟩
            rw [h]
            simp
      exact A1 t hts
    · intro t ht
      rw [hup] at ht ⊢
      exact B1 t (fun h => ht (P1.2.2.2.subset h))

theorem lsData_nodup (st : Core) (hw : WF st) (l : Layer) (s : Segment) :
    ((lsData st.data l s).map Prod.fst).Nodup := by
  rcases hg : alistGet st.data l with _ | ld
  · rw [lsData_eq, lData, hg]
    simp [alistGet]
  · have hld : lData st.data l = ld := by rw [lData, hg]; rfl
    rcases hg2 : alistGet ld s with _ | kv
    · rw [lsData_eq, hld, hg2]
      simp
    · rw [lsData_eq, hld, hg2, Option.getD_some]
      exact hw.kv_nodup (l, ld) (alistGet_mem _ _ _ hg) (s, kv) (alistGet_mem _ _ _ hg2)

theorem mem_keys_of_mem {α β : Type} (m : List (α × β)) (p : α × β) (h : p ∈ m) :
    p.1 ∈ m.map Prod.fst :=
  List.mem_map_of_mem Prod.fst h

theorem keys_mem_exists {α β : Type} (m : List (α × β)) (a : α)
    (h : a ∈ m.map Prod.fst) : ∃ p ∈ m, p.1 = a := by
  rcases List.mem_map.mp h with ⟨p, hp, rfl⟩
  exact ⟨p, hp, rfl⟩

/-- Effect on the nested lookups of writing a whole key-value map at one
(layer, segment) slot. -/
theorem lsData_dataWrite (d : Data) (l : Layer) (s : Segment) (kv : KVMap)
    (l' : Layer) (s' : Segment) :
    lsData (alistSet d l (alistSet (lData d l) s kv)) l' s' =
      if l' = l ∧ s' = s then kv else lsData d l' s' := by
  by_cases h1 : l' = l
  · subst h1
    rw [lsData_eq, lData_set_self]
    by_cases h2 : s' = s
    · subst h2
      rw [alistGet_set_self, if_pos ⟨rfl, rfl⟩]
      rfl
    · rw [alistGet_set_ne _ _ _ _ h2, if_neg (fun hc => h2 hc.2)]
      rfl
  · rw [lsData_eq, lData_set_ne _ _ _ _ h1, if_neg (fun hc => h1 hc.1)]
    rfl

/-- WF is preserved by overwriting one (layer, segment) slot with a map
with duplicate-free keys whose segments stay registered. -/
theorem dataWrite_wf (st : Core) (l : Layer) (s : Segment) (kv : KVMap) (hw : WF st)
    (hl : l ∈ st.data.map Prod.fst) (hs : s ∈ (lData st.data l).map Prod.fst)
    (hkv : (kv.map Prod.fst).Nodup) :
    WF { st with data := alistSet st.data l (alistSet (lData st.data l) s kv) } := by
  have hld : (l, lData st.data l) ∈ st.data := lData_mem st.data l hl
  have hsreg : s ∈ st.segments := by
    obtain ⟨q, hq, rfl⟩ := keys_mem_exists _ _ hs
    exact hw.data_sub _ hld q hq
  constructor
  · show st.layers = sortDesc ((alistSet st.data l _).map Prod.fst)
    rw [alistSet_keys_of_mem _ _ _ hl]
    exact hw.layers_eq
  · show ((alistSet st.data l _).map Prod.fst).Nodup
    rw [alistSet_keys_of_mem _ _ _ hl]
    exact hw.data_keys_nodup
  · intro p hp
    rcases mem_alistSet _ _ _ _ hp with hp | rfl
    · exact hw.seg_keys_nodup p hp
    · show ((alistSet (lData st.data l) s kv).map Prod.fst).Nodup
      rw [alistSet_keys_of_mem _ _ _ hs]
      exact hw.seg_keys_nodup _ hld
  · intro p hp q hq
    rcases mem_alistSet _ _ _ _ hp with hp | rfl
    · exact hw.kv_nodup p hp q hq
    · rcases mem_alistSet _ _ _ _ hq with hq | rfl
      · exact hw.kv_nodup _ hld q hq
      · exact hkv
  · exact hw.segments_nodup
  · exact hw.cache_keys_nodup
  · exact hw.cache_kv_nodup
  · exact hw.cache_sub
  · intro p hp q hq
    rcases mem_alistSet _ _ _ _ hp with hp | rfl
    · exact hw.data_sub p hp q hq
    · rcases mem_alistSet _ _ _ _ hq with hq | rfl
      · exact hw.data_sub _ hld q hq
      · exact hsreg

theorem mem_alistDelete_ne {α β : Type} [DecidableEq α] (m : List (α × β)) (a : α)
    (p : α × β) (hnd : (m.map Prod.fst).Nodup) (h : p ∈ alistDelete m a) : p.1 ≠ a := by
  induction m with
  | nil => simp [alistDelete] at h
  | cons q rest ih =>
    rw [List.map_cons, List.nodup_cons] at hnd
    by_cases h1 : q.1 = a
    · rw [alistDelete, if_pos h1] at h
      subst h1
      intro hpa
      exact hnd.1 (hpa ▸ mem_keys_of_mem rest p h)
    · rw [alistDelete, if_neg h1] at h
      rcases List.mem_cons.mp h with rfl | h2
      · exact h1
      · exact ih hnd.2 h2

theorem deleteSegmentData_keys (d : Data) (s : Segment) :
    (d.map (fun p => (p.1, alistDelete p.2 s))).map Prod.fst = d.map Prod.fst := by
  rw [List.map_map]
  rfl

theorem deleteSegmentData_wf (st : Core) (s : Segment) (hw : WF st) :
    WF (deleteSegmentData st s) := by
  constructor
  · show st.layers = sortDesc ((st.data.map (fun p => (p.1, alistDelete p.2 s))).map Prod.fst)
    rw [deleteSegmentData_keys]
    exact hw.layers_eq
  · show ((st.data.map (fun p => (p.1, alistDelete p.2 s))).map Prod.fst).Nodup
    rw [deleteSegmentData_keys]
    exact hw.data_keys_nodup
  · intro p hp
    rcases List.mem_map.mp hp with ⟨q, hq, rfl⟩
    exact alistDelete_keys_nodup _ _ (hw.seg_keys_nodup q hq)
  · intro p hp q hq
    rcases List.mem_map.mp hp with ⟨r, hr, rfl⟩
    exact hw.kv_nodup r hr q (mem_alistDelete _ _ _ hq)
  · exact hw.segments_nodup.erase s
  · exact alistDelete_keys_nodup _ _ hw.cache_keys_nodup
  · intro p hp
    exact hw.cache_kv_nodup p (mem_alistDelete _ _ _ hp)
  · intro p hp
    have hne : p.1 ≠ s := mem_alistDelete_ne _ _ _ hw.cache_keys_nodup hp
    exact (List.mem_erase_of_ne hne).mpr (hw.cache_sub p (mem_alistDelete _ _ _ hp))
  · intro p hp q hq
    rcases List.mem_map.mp hp with ⟨r, hr, rfl⟩
    have hne : q.1 ≠ s := mem_alistDelete_ne _ _ _ (hw.seg_keys_nodup r hr) hq
    exact (List.mem_erase_of_ne hne).mpr (hw.data_sub r hr q (mem_alistDelete _ _ _ hq))

theorem set_wf_step (st : Core) (l : Layer) (s : Segment) (k : Key) (v : Value)
    (hw : WF st) :
    WF { ensureLS st l s with data := dataSetKey (ensureLS st l s).data l s k v } := by
  have hwE : WF (ensureLS st l s) := ensureLS_wf st l s hw
  exact dataWrite_wf (ensureLS st l s) l s _ hwE (ensureLS_mem_layer st l s)
    (ensureLS_mem_seg st l s)
    (alistSet_keys_nodup _ _ _ (lsData_nodup _ hwE l s))

theorem delete_wf_step (st : Core) (l : Layer) (s : Segment) (k : Key) (hw : WF st) :
    WF { ensureLS st l s with data := dataDelKey (ensureLS st l s).data l s k } := by
  have hwE : WF (ensureLS st l s) := ensureLS_wf st l s hw
  exact dataWrite_wf (ensureLS st l s) l s _ hwE (ensureLS_mem_layer st l s)
    (ensureLS_mem_seg st l s)
    (alistDelete_keys_nodup _ _ (lsData_nodup _ hwE l s))

theorem set_wf (st : Core) (l : Layer) (s : Segment) (k : Key) (v : Value)
    (hw : WF st) : WF (set st l s k v) :=
  (updateCache_spec _ k (set_wf_step st l s k v hw)).2.1

theorem delete_wf (st : Core) (l : Layer) (s : Segment) (k : Key) (hw : WF st) :
    WF (delete st l s k) :=
  (updateCache_spec _ k (delete_wf_step st l s k hw)).2.1

/-- Every reachable state satisfies the structural invariants. -/
theorem reachable_wf {st : Core} (h : Reachable st) : WF st := by
  induction h with
  | empty => exact wf_empty
  | set l s k v _ ih => exact set_wf _ l s k v ih
  | del l s k _ ih => exact delete_wf _ l s k ih
  | delSeg s _ ih => exact deleteSegmentData_wf _ s ih

theorem set_eq (st : Core) (l : Layer) (s : Segment) (k : Key) (v : Value) :
    set st l s k v =
      updateCache
        { ensureLS st l s with data := dataSetKey (ensureLS st l s).data l s k v } k := rfl

theorem delete_eq (st : Core) (l : Layer) (s : Segment) (k : Key) :
    delete st l s k =
      updateCache
        { ensureLS st l s with data := dataDelKey (ensureLS st l s).data l s k } k := rfl

theorem cache_none_of_not_seg (st : Core) (hw : WF st) (s : Segment)
    (h : s ∉ st.segments) : alistGet st.topLevelCache s = none := by
  rcases hg : alistGet st.topLevelCache s with _ | m
  · rfl
  · exact absurd (hw.cache_sub (s, m) (alistGet_mem _ _ _ hg)) h

theorem lsData_empty_of_not_seg (st : Core) (hw : WF st) (s : Segment)
    (h : s ∉ st.segments) (l : Layer) : lsData st.data l s = [] := by
  rcases hg : alistGet st.data l with _ | ld
  · rw [lsData_eq, lData, hg]
    rfl
  · have hld : lData st.data l = ld := by rw [lData, hg]; rfl
    rcases hg2 : alistGet ld s with _ | kv
    · rw [lsData_eq, hld, hg2]
      rfl
    · exact absurd (hw.data_sub (l, ld) (alistGet_mem _ _ _ hg) (s, kv)
        (alistGet_mem _ _ _ hg2)) h

theorem layerHit_mono (d : Data) (k : Key) (l : Layer) :
    layerHit d Segment.monolithic k l = lookupKey d l Segment.monolithic k := by
  unfold layerHit
  rcases h : lookupKey d l Segment.monolithic k with _ | v
  · rfl
  · rfl

theorem resolveOn_no_own (d : Data) (s : Segment) (k : Key) (LS : List Layer)
    (h : ∀ l ∈ LS, lookupKey d l s k = none) :
    resolveOn d s k LS = resolveOn d Segment.monolithic k LS := by
  induction LS with
  | nil => rfl
  | cons l rest ih =>
    have hhit : layerHit d s k l = lookupKey d l Segment.monolithic k := by
      unfold layerHit
      rw [h l (List.mem_cons_self _ _)]
    show (match layerHit d s k l with
      | some v => some v
      | none => resolveOn d s k rest) = (match layerHit d Segment.monolithic k l with
      | some v => some v
      | none => resolveOn d Segment.monolithic k rest)
    rw [hhit, layerHit_mono]
    rcases lookupKey d l Segment.monolithic k with _ | v
    · exact ih (fun l0 hl0 => h l0 (List.mem_cons_of_mem _ hl0))
    · rfl

theorem resolveOn_none (d : Data) (s : Segment) (k : Key) (LS : List Layer)
    (hs : ∀ l ∈ LS, lookupKey d l s k = none)
    (hm : ∀ l ∈ LS, lookupKey d l Segment.monolithic k = none) :
    resolveOn d s k LS = none := by
  induction LS with
  | nil => rfl
  | cons l rest ih =>
    have hhit : layerHit d s k l = none := by
      unfold layerHit
      rw [hs l (List.mem_cons_self _ _), hm l (List.mem_cons_self _ _)]
    show (match layerHit d s k l with
      | some v => some v
      | none => resolveOn d s k rest) = none
    rw [hhit]
    exact ih (fun l0 hl0 => hs l0 (List.mem_cons_of_mem _ hl0))
      (fun l0 hl0 => hm l0 (List.mem_cons_of_mem _ hl0))

/-- After `_updateCache` runs on a well-formed state, the cache entry of the
mutated key equals full resolution from the raw store, for every known
segment. -/
theorem updateCache_cacheVal (st2 : Core) (k : Key) (hw2 : WF st2) :
    ∀ s ∈ (updateCache st2 k).segments,
      cacheVal (updateCache st2 k) s k = resolve (updateCache st2 k) s k := by
  obtain ⟨P, W, _, A, _⟩ := updateCache_spec st2 k hw2
  intro s hs
  obtain ⟨m, hm, hmk⟩ := A s hs
  have hres : resolveOn st2.data s k st2.layers = resolve (updateCache st2 k) s k := by
    unfold resolve
    rw [← W.layers_eq, ← resolveOn_congr _ _ s k _ P.1, P.2.1]
  rw [cacheVal, hm]
  show alistGet m k = _
  rw [hmk, hres]

/-- After `_updateCache` runs on a well-formed state, `get` on the mutated
key equals full resolution from the raw store, for every segment. -/
theorem updateCache_get (st2 : Core) (k : Key) (hw2 : WF st2) :
    ∀ s, get (updateCache st2 k) s k = resolve (updateCache st2 k) s k := by
  obtain ⟨P, W, _, A, _⟩ := updateCache_spec st2 k hw2
  intro s
  by_cases hS : s ∈ (updateCache st2 k).segments
  · obtain ⟨m, hm, hmk⟩ := A s hS
    have hres : resolveOn st2.data s k st2.layers = resolve (updateCache st2 k) s k := by
      unfold resolve
      rw [← W.layers_eq, ← resolveOn_congr _ _ s k _ P.1, P.2.1]
    rw [get, hm]
    show alistGet m k = _
    rw [hmk, hres]
  · have hcS : alistGet (updateCache st2 k).topLevelCache s = none :=
      cache_none_of_not_seg _ W s hS
    have hSlook : ∀ l, lookupKey (updateCache st2 k).data l s k = none := by
      intro l
      rw [lookupKey, lsData_empty_of_not_seg _ W s hS l]
      rfl
    have hSres : resolve (updateCache st2 k) s k =
        resolve (updateCache st2 k) Segment.monolithic k := by
      unfold resolve
      exact resolveOn_no_own _ s k _ (fun l _ => hSlook l)
    by_cases hM : Segment.monolithic ∈ (updateCache st2 k).segments
    · obtain ⟨m, hm, hmk⟩ := A Segment.monolithic hM
      have hres : resolveOn st2.data Segment.monolithic k st2.layers =
          resolve (updateCache st2 k) Segment.monolithic k := by
        unfold resolve
        rw [← W.layers_eq, ← resolveOn_congr _ _ Segment.monolithic k _ P.1, P.2.1]
      rw [get, hcS, hm]
      show alistGet m k = _
      rw [hmk, hres, hSres]
    · have hcM : alistGet (updateCache st2 k).topLevelCache Segment.monolithic = none :=
        cache_none_of_not_seg _ W Segment.monolithic hM
      have hMlook : ∀ l, lookupKey (updateCache st2 k).data l Segment.monolithic k = none := by
        intro l
        rw [lookupKey, lsData_empty_of_not_seg _ W Segment.monolithic hM l]
        rfl
      have : resolve (updateCache st2 k) s k = none := by
        unfold resolve
        exact resolveOn_none _ s k _ (fun l _ => hSlook l) (fun l _ => hMlook l)
      rw [get, hcS, hcM, this]

theorem ensureLS_seg_registered (st : Core) (l : Layer) (s : Segment) (hw : WF st) :
    s ∈ (ensureLS st l s).segments := by
  by_cases h1 : l ∈ st.data.map Prod.fst
  · by_cases h2 : s ∈ (lData st.data l).map Prod.fst
    · rw [ensureLS_eq_self st l s h1 h2]
      obtain ⟨q, hq, rfl⟩ := keys_mem_exists _ _ h2
      exact hw.data_sub _ (lData_mem st.data l h1) q hq
    · rw [ensureLS_eq_newSeg st l s h1 h2]
      exact (mem_segAdd _ _ _).mpr (Or.inr rfl)
  · rw [ensureLS_eq_newLayer st l s h1]
    exact (mem_segAdd _ _ _).mpr (Or.inr rfl)

theorem ensureLS_keys_cases (st : Core) (l : Layer) (s : Segment) :
    (l ∈ st.data.map Prod.fst ∧
      (ensureLS st l s).data.map Prod.fst = st.data.map Prod.fst) ∨
    (l ∉ st.data.map Prod.fst ∧
      (ensureLS st l s).data.map Prod.fst = st.data.map Prod.fst ++ [l]) := by
  by_cases h1 : l ∈ st.data.map Prod.fst
  · exact Or.inl ⟨h1, (ensureLS_keys_of_mem st l s h1).2⟩
  · refine Or.inr ⟨h1, ?_⟩
    rw [ensureLS_eq_newLayer st l s h1]
    show (alistSet (alistSet st.data l []) l [(s, [])]).map Prod.fst = _
    rw [alistSet_keys_of_mem _ _ _ ((mem_alistSet_keys _ _ _ _).mpr (Or.inr rfl)),
      alistSet_keys_of_not_mem _ _ _ h1]

theorem layerHit_of_own (d : Data) (s : Segment) (k : Key) (l : Layer) (v : Value)
    (h : lookupKey d l s k = some v) : layerHit d s k l = some v := by
  unfold layerHit
  rw [h]

theorem resolveOn_isSome (d : Data) (s : Segment) (k : Key) (LS : List Layer)
    (l : Layer) (hl : l ∈ LS) (hhit : layerHit d s k l ≠ none) :
    (resolveOn d s k LS).isSome = true := by
  induction LS with
  | nil => simp at hl
  | cons a rest ih =>
    show (match layerHit d s k a with
      | some v => some v
      | none => resolveOn d s k rest).isSome = true
    rcases ha : layerHit d s k a with _ | v
    · rcases List.mem_cons.mp hl with rfl | hl
      · exact absurd ha hhit
      · exact ih hl
    · rfl

/-- In a strictly descending layer list, the result of the walk is the hit
at the highest layer that has one. -/
theorem resolveOn_eq_of_max_hit (d : Data) (s : Segment) (k : Key) (LS : List Layer)
    (hsort : LS.Pairwise (fun a b => b < a)) (l : Layer) (hl : l ∈ LS) (v : Value)
    (hhit : layerHit d s k l = some v)
    (hmax : ∀ l0 ∈ LS, l < l0 → layerHit d s k l0 = none) :
    resolveOn d s k LS = some v := by
  induction LS with
  | nil => simp at hl
  | cons a rest ih =>
    rcases List.pairwise_cons.mp hsort with ⟨ha, hrest⟩
    show (match layerHit d s k a with
      | some w => some w
      | none => resolveOn d s k rest) = some v
    rcases List.mem_cons.mp hl with rfl | hl
    · rw [hhit]
    · have hla : l < a := ha l hl
      rw [hmax a (List.mem_cons_self _ _) hla]
      exact ih hrest hl (fun l0 hl0 h0 => hmax l0 (List.mem_cons_of_mem _ hl0) h0)

/-- Conversely, in a strictly descending layer list a successful walk comes
from a hit at some layer above which no layer has a hit. -/
theorem resolveOn_exists_max_hit (d : Data) (s : Segment) (k : Key) (LS : List Layer)
    (hsort : LS.Pairwise (fun a b => b < a)) (v : Value)
    (h : resolveOn d s k LS = some v) :
    ∃ l ∈ LS, layerHit d s k l = some v ∧
      ∀ l0 ∈ LS, l < l0 → layerHit d s k l0 = none := by
  induction LS with
  | nil => simp [resolveOn] at h
  | cons a rest ih =>
    rcases List.pairwise_cons.mp hsort with ⟨ha, hrest⟩
    have h2 : (match layerHit d s k a with
      | some w => some w
      | none => resolveOn d s k rest) = some v := h
    rcases hha : layerHit d s k a with _ | w
    · rw [hha] at h2
      obtain ⟨l, hl, hhit, hmax⟩ := ih hrest h2
      refine ⟨l, List.mem_cons_of_mem _ hl, hhit, ?_⟩
      intro l0 hl0 h0
      rcases List.mem_cons.mp hl0 with rfl | hl0
      · exact hha
      · exact hmax l0 hl0 h0
    · rw [hha] at h2
      obtain rfl := Option.some.inj h2
      refine ⟨a, List.mem_cons_self _ _, hha, ?_⟩
      intro l0 hl0 h0
      rcases List.mem_cons.mp hl0 with rfl | hl0
      · exact absurd h0 (lt_irrefl _)
      · exact absurd (lt_trans h0 (ha l0 hl0)) (lt_irrefl _)

theorem lookupKey_layer_mem (d : Data) (l : Layer) (s : Segment) (k : Key)
    (h : lookupKey d l s k ≠ none) : l ∈ d.map Prod.fst := by
  by_contra hc
  apply h
  rw [lookupKey, lsData_eq, lData, (alistGet_eq_none_iff d l).mpr hc]
  simp [alistGet]

theorem alistDelete_idem {α β : Type} [DecidableEq α] (m : List (α × β)) (a : α)
    (h : (m.map Prod.fst).Nodup) : alistDelete (alistDelete m a) a = alistDelete m a :=
  alistDelete_of_not_mem _ _
    ((alistGet_eq_none_iff _ _).mp (alistGet_delete_self m a h))

/-- Raw-lookup level description of `set`: lookups change exactly at the
written triple (everything else, including the layer and segment maps the
operation may create, is lookup-invisible). -/
theorem set_lookup (st : Core) (hw : WF st) (L : Layer) (A : Segment) (k : Key)
    (v : Value) (l' : Layer) (s' : Segment) (k' : Key) :
    lookupKey (set st L A k v).data l' s' k' =
      if l' = L ∧ s' = A ∧ k' = k then some v else lookupKey st.data l' s' k' := by
  obtain ⟨P, W, S, A1, B1⟩ := updateCache_spec
    { ensureLS st L A with data := dataSetKey (ensureLS st L A).data L A k v } k
    (set_wf_step st L A k v hw)
  rw [set_eq, P.lookup l' s' k']
  show lookupKey (dataSetKey (ensureLS st L A).data L A k v) l' s' k' = _
  unfold lookupKey
  show alistGet (lsData (alistSet (ensureLS st L A).data L
    (alistSet (lData (ensureLS st L A).data L) A
      (alistSet (lsData (ensureLS st L A).data L A) k v))) l' s') k' = _
  rw [lsData_dataWrite]
  by_cases h1 : l' = L ∧ s' = A
  · rw [if_pos h1]
    obtain ⟨rfl, rfl⟩ := h1
    by_cases h2 : k' = k
    · subst h2
      rw [alistGet_set_self, if_pos ⟨rfl, rfl, rfl⟩]
    · rw [alistGet_set_ne _ _ _ _ h2, if_neg (fun hc => h2 hc.2.2)]
      show lookupKey (ensureLS st l' s').data l' s' k' = _
      rw [ensureLS_lookup]
      rfl
  · rw [if_neg h1]
    have hifn : ¬(l' = L ∧ s' = A ∧ k' = k) := fun hc => h1 ⟨hc.1, hc.2.1⟩
    rw [if_neg hifn]
    show lookupKey (ensureLS st L A).data l' s' k' = _
    rw [ensureLS_lookup]
    rfl

theorem delete_lookup (st : Core) (hw : WF st) (L : Layer) (A : Segment) (k : Key)
    (l' : Layer) (s' : Segment) (k' : Key) :
    lookupKey (delete st L A k).data l' s' k' =
      if l' = L ∧ s' = A ∧ k' = k then none else lookupKey st.data l' s' k' := by
  obtain ⟨P, W, S, A1, B1⟩ := updateCache_spec
    { ensureLS st L A with data := dataDelKey (ensureLS st L A).data L A k } k
    (delete_wf_step st L A k hw)
  rw [delete_eq, P.lookup l' s' k']
  show lookupKey (dataDelKey (ensureLS st L A).data L A k) l' s' k' = _
  unfold lookupKey
  show alistGet (lsData (alistSet (ensureLS st L A).data L
    (alistSet (lData (ensureLS st L A).data L) A
      (alistDelete (lsData (ensureLS st L A).data L A) k))) l' s') k' = _
  rw [lsData_dataWrite]
  by_cases h1 : l' = L ∧ s' = A
  · rw [if_pos h1]
    obtain ⟨rfl, rfl⟩ := h1
    by_cases h2 : k' = k
    · subst h2
      rw [alistGet_delete_self _ _ (lsData_nodup _ (ensureLS_wf st l' s' hw) l' s'),
        if_pos ⟨rfl, rfl, rfl⟩]
    · rw [alistGet_delete_ne _ _ _ h2, if_neg (fun hc => h2 hc.2.2)]
      show lookupKey (ensureLS st l' s').data l' s' k' = _
      rw [ensureLS_lookup]
      rfl
  · rw [if_neg h1]
    have hifn : ¬(l' = L ∧ s' = A ∧ k' = k) := fun hc => h1 ⟨hc.1, hc.2.1⟩
    rw [if_neg hifn]
    show lookupKey (ensureLS st L A).data l' s' k' = _
    rw [ensureLS_lookup]
    rfl

/-- The layer keys after a `set`: the old keys, with the written layer
appended when it is new. -/
theorem set_keys_cases (st : Core) (hw : WF st) (L : Layer) (A : Segment) (k : Key)
    (v : Value) :
    (L ∈ st.data.map Prod.fst ∧
      (set st L A k v).data.map Prod.fst = st.data.map Prod.fst) ∨
    (L ∉ st.data.map Prod.fst ∧
      (set st L A k v).data.map Prod.fst = st.data.map Prod.fst ++ [L]) := by
  obtain ⟨P, _, _, _, _⟩ := updateCache_spec
    { ensureLS st L A with data := dataSetKey (ensureLS st L A).data L A k v } k
    (set_wf_step st L A k v hw)
  have hk : (set st L A k v).data.map Prod.fst =
      (ensureLS st L A).data.map Prod.fst := by
    rw [set_eq, P.2.2.1]
    show (dataSetKey (ensureLS st L A).data L A k v).map Prod.fst = _
    exact alistSet_keys_of_mem _ _ _ (ensureLS_mem_layer st L A)
  rcases ensureLS_keys_cases st L A with ⟨h1, h2⟩ | ⟨h1, h2⟩
  · exact Or.inl ⟨h1, by rw [hk, h2]⟩
  · exact Or.inr ⟨h1, by rw [hk, h2]⟩

/-- Writing (L, A, key, v) does not change the resolved value of the key
for a different segment B that already has its own binding for the key at a
layer of priority at least L. -/
theorem resolve_set_invariant (st : Core) (hw : WF st) (L : Layer) (A B : Segment)
    (k : Key) (v : Value) (hAB : B ≠ A) (LP : Layer) (hLP : L ≤ LP)
    (hown : lookupKey st.data LP B k ≠ none) :
    resolve (set st L A k v) B k = resolve st B k := by
  have W2 : WF (set st L A k v) := set_wf st L A k v hw
  have hBlook : ∀ l', lookupKey (set st L A k v).data l' B k = lookupKey st.data l' B k := by
    intro l'
    rw [set_lookup st hw L A k v l' B k, if_neg (fun hc => hAB hc.2.1)]
  have hMlook : ∀ l', l' ≠ L →
      lookupKey (set st L A k v).data l' Segment.monolithic k =
        lookupKey st.data l' Segment.monolithic k := by
    intro l' hl'
    rw [set_lookup st hw L A k v l' Segment.monolithic k, if_neg (fun hc => hl' hc.1)]
  have hHit : ∀ l', l' ≠ L →
      layerHit (set st L A k v).data B k l' = layerHit st.data B k l' := by
    intro l' hl'
    unfold layerHit
    rw [hBlook l', hMlook l' hl']
  have hLPmem : LP ∈ sortDesc (st.data.map Prod.fst) :=
    (mem_sortDesc _ _).mpr (lookupKey_layer_mem st.data LP B k hown)
  have hLPhit : layerHit st.data B k LP ≠ none := by
    rcases hB : lookupKey st.data LP B k with _ | w
    · exact absurd hB hown
    · rw [layerHit_of_own st.data B k LP w hB]
      simp
  have hsort : (sortDesc (st.data.map Prod.fst)).Pairwise (fun a b => b < a) :=
    sortDesc_strict _ hw.data_keys_nodup
  rcases hres : resolve st B k with _ | r
  · exfalso
    have := resolveOn_isSome st.data B k (sortDesc (st.data.map Prod.fst)) LP hLPmem hLPhit
    rw [show resolveOn st.data B k (sortDesc (st.data.map Prod.fst)) = resolve st B k
      from rfl, hres] at this
    simp at this
  · obtain ⟨l0, hl0mem, hl0hit, hl0max⟩ :=
      resolveOn_exists_max_hit st.data B k _ hsort r hres
    have hLPle : LP ≤ l0 := by
      by_contra hc
      push_neg at hc
      exact hLPhit (hl0max LP hLPmem hc)
    have hl0L : L ≤ l0 := le_trans hLP hLPle
    have hl0keys : l0 ∈ st.data.map Prod.fst := (mem_sortDesc _ _).mp hl0mem
    have hl0mem2 : l0 ∈ sortDesc ((set st L A k v).data.map Prod.fst) := by
      rw [mem_sortDesc]
      rcases set_keys_cases st hw L A k v with ⟨_, hk⟩ | ⟨_, hk⟩
      · rw [hk]
        exact hl0keys
      · rw [hk]
        exact List.mem_append_left _ hl0keys
    have hsort2 : (sortDesc ((set st L A k v).data.map Prod.fst)).Pairwise
        (fun a b => b < a) := sortDesc_strict _ W2.data_keys_nodup
    have hl0hit2 : layerHit (set st L A k v).data B k l0 = some r := by
      by_cases hl0 : l0 = L
      · subst hl0
        rcases hB : lookupKey st.data l0 B k with _ | w
        · exfalso
          have hLPl0 : LP = l0 := le_antisymm hLPle hLP
          rw [hLPl0] at hown
          exact hown hB
        · have : layerHit st.data B k l0 = some w := layerHit_of_own _ _ _ _ _ hB
          rw [this] at hl0hit
          obtain rfl := Option.some.inj hl0hit
          exact layerHit_of_own _ _ _ _ _ ((hBlook l0).trans hB)
      · rw [hHit l0 hl0]
        exact hl0hit
    have hmax2 : ∀ l' ∈ sortDesc ((set st L A k v).data.map Prod.fst), l0 < l' →
        layerHit (set st L A k v).data B k l' = none := by
      intro l' hl' h0
      have hl'L : l' ≠ L := by
        intro hc
        subst hc
        exact absurd h0 (not_lt_of_le hl0L)
      have hl'keys : l' ∈ st.data.map Prod.fst := by
        rw [mem_sortDesc] at hl'
        rcases set_keys_cases st hw L A k v with ⟨_, hk⟩ | ⟨_, hk⟩
        · rw [hk] at hl'
          exact hl'
        · rw [hk] at hl'
          rcases List.mem_append.mp hl' with hl' | hl'
          · exact hl'
          · exact absurd (List.mem_singleton.mp hl') hl'L
      rw [hHit l' hl'L]
      exact hl0max l' ((mem_sortDesc _ _).mpr hl'keys) h0
    show resolveOn (set st L A k v).data B k
      (sortDesc ((set st L A k v).data.map Prod.fst)) = some r
    exact resolveOn_eq_of_max_hit (set st L A k v).data B k _ hsort2 l0 hl0mem2 r
      hl0hit2 hmax2

theorem coreExt {x y : Core} (h1 : x.data = y.data) (h2 : x.layers = y.layers)
    (h3 : x.segments = y.segments) (h4 : x.topLevelCache = y.topLevelCache) : x = y := by
  cases x
  cases y
  simp_all

/-! ### Claim theorems -/

/-- C1, counterexample: the cache is NOT a pure function of the Raw Store.
After `set(0, monolithic, k1, 10); set(0, S, k2, 20)` the segment S was
registered only by the second write, so its cache was refreshed only for
k2; `cache[S][k1]` is absent although `resolve(S, k1) = 10` via the
monolithic fallback in the Raw Store. -/
theorem C1_counterexample :
    Reachable (set (set Core.empty 0 Segment.monolithic 1 10) 0 (Segment.real 0) 2 20) ∧
    cacheVal (set (set Core.empty 0 Segment.monolithic 1 10) 0 (Segment.real 0) 2 20)
      (Segment.real 0) 1 = none ∧
    resolve (set (set Core.empty 0 Segment.monolithic 1 10) 0 (Segment.real 0) 2 20)
      (Segment.real 0) 1 = some 10 := by
  refine ⟨Reachable.set 0 (Segment.real 0) 2 20
    (Reachable.set 0 Segment.monolithic 1 10 Reachable.empty), by decide, by decide⟩

/-- C1, amended: after each core mutation (`set` or `delete`) of a key
completes, the Top-Level Cache entry of THAT key equals `resolve` recomputed
from the Raw Store alone, for every known segment; the full per-key claim
fails for keys whose last mutation preceded a segment's registration. -/
theorem C1_amended_cache_fresh (st : Core) (h : Reachable st) (l : Layer) (s : Segment)
    (k : Key) (v : Value) :
    (∀ S ∈ (set st l s k v).segments,
      cacheVal (set st l s k v) S k = resolve (set st l s k v) S k) ∧
    (∀ S ∈ (delete st l s k).segments,
      cacheVal (delete st l s k) S k = resolve (delete st l s k) S k) := by
  have hw := reachable_wf h
  constructor
  · intro S hS
    rw [set_eq] at hS ⊢
    exact updateCache_cacheVal _ k (set_wf_step st l s k v hw) S hS
  · intro S hS
    rw [delete_eq] at hS ⊢
    exact updateCache_cacheVal _ k (delete_wf_step st l s k hw) S hS

theorem C1_witness :
    cacheVal (set Core.empty 0 (Segment.real 0) 1 5) (Segment.real 0) 1 =
      resolve (set Core.empty 0 (Segment.real 0) 1 5) (Segment.real 0) 1 :=
  (C1_amended_cache_fresh Core.empty Reachable.empty 0 (Segment.real 0) 1 5).1
    (Segment.real 0) (by decide)

/-- C2, counterexample: the claim predicts `get(S, k1) = 10` (k1 was last
set, and never deleted, at layer 0 of the monolithic segment, and S has no
own binding), but the code returns undefined because S's cache map exists
and lacks k1. -/
theorem C2_counterexample :
    Reachable (set (set Core.empty 0 Segment.monolithic 1 10) 0 (Segment.real 0) 2 20) ∧
    lookupKey (set (set Core.empty 0 Segment.monolithic 1 10) 0
      (Segment.real 0) 2 20).data 0 Segment.monolithic 1 = some 10 ∧
    hasOwnValue (set (set Core.empty 0 Segment.monolithic 1 10) 0 (Segment.real 0) 2 20)
      (Segment.real 0) 1 = false ∧
    resolve (set (set Core.empty 0 Segment.monolithic 1 10) 0 (Segment.real 0) 2 20)
      (Segment.real 0) 1 = some 10 ∧
    get (set (set Core.empty 0 Segment.monolithic 1 10) 0 (Segment.real 0) 2 20)
      (Segment.real 0) 1 = none := by
  refine ⟨Reachable.set 0 (Segment.real 0) 2 20
    (Reachable.set 0 Segment.monolithic 1 10 Reachable.empty),
    by decide, by decide, by decide, by decide⟩

/-- C2, amended: immediately after a `set` or `delete` of a key, `get` on
that key returns the resolved value (highest-priority layer, segment map
before monolithic map, first hit; absence — not an error — when nothing is
found) for EVERY segment; the claim as stated fails for keys last mutated
before the queried segment's registration. -/
theorem C2_amended_get_resolve (st : Core) (h : Reachable st) (l : Layer) (s : Segment)
    (k : Key) (v : Value) :
    (∀ S, get (set st l s k v) S k = resolve (set st l s k v) S k) ∧
    (∀ S, get (delete st l s k) S k = resolve (delete st l s k) S k) := by
  have hw := reachable_wf h
  constructor
  · intro S
    rw [set_eq]
    exact updateCache_get _ k (set_wf_step st l s k v hw) S
  · intro S
    rw [delete_eq]
    exact updateCache_get _ k (delete_wf_step st l s k hw) S

theorem C2_witness :
    get (set Core.empty 0 (Segment.real 0) 1 5) (Segment.real 0) 1 =
      resolve (set Core.empty 0 (Segment.real 0) 1 5) (Segment.real 0) 1 :=
  (C2_amended_get_resolve Core.empty Reachable.empty 0 (Segment.real 0) 1 5).1
    (Segment.real 0)

/-- C3, counterexample: a reachable state where segment S has no own value
for k1 at any layer, yet `get(S, k1) = undefined` differs from
`get(monolithic, k1) = 10`, because S has a (k1-less) cache map which
suppresses the monolithic fallback of `get`. -/
theorem C3_counterexample :
    Reachable (set (set Core.empty 0 Segment.monolithic 1 10) 0 (Segment.real 0) 2 20) ∧
    hasOwnValue (set (set Core.empty 0 Segment.monolithic 1 10) 0 (Segment.real 0) 2 20)
      (Segment.real 0) 1 = false ∧
    get (set (set Core.empty 0 Segment.monolithic 1 10) 0 (Segment.real 0) 2 20)
      (Segment.real 0) 1 = none ∧
    get (set (set Core.empty 0 Segment.monolithic 1 10) 0 (Segment.real 0) 2 20)
      Segment.monolithic 1 = some 10 := by
  refine ⟨Reachable.set 0 (Segment.real 0) 2 20
    (Reachable.set 0 Segment.monolithic 1 10 Reachable.empty),
    by decide, by decide, by decide⟩

/-- C3, amended: the monolithic fallback of `get` applies exactly when the
segment has no cache map at all (never written to and never refreshed
against): in that case `get(S, key) = get(monolithic, key)` for every key.
Having no raw-store value at any layer is not sufficient. -/
theorem C3_amended_fallback (st : Core) (s : Segment) (k : Key)
    (h : alistGet st.topLevelCache s = none) :
    get st s k = get st Segment.monolithic k := by
  rw [get, h]
  rcases hm : alistGet st.topLevelCache Segment.monolithic with _ | m
  · rw [get, hm]
  · rw [get, hm]

theorem C3_witness :
    alistGet (set Core.empty 0 Segment.monolithic 1 10).topLevelCache
      (Segment.real 3) = none ∧
    get (set Core.empty 0 Segment.monolithic 1 10) (Segment.real 3) 1 =
      get (set Core.empty 0 Segment.monolithic 1 10) Segment.monolithic 1 :=
  ⟨by decide, C3_amended_fallback (set Core.empty 0 Segment.monolithic 1 10)
    (Segment.real 3) 1 (by decide)⟩

/-- C4, counterexample: deleting an entry that is absent is NOT observably a
no-op. `delete(0, S, k2)` on a store that only holds (0, monolithic, k1)
creates S's maps, registers S and gives S a cache map, which silences the
monolithic fallback: `get(S, k1)` changes from 10 to undefined. -/
theorem C4_counterexample :
    Reachable (set Core.empty 0 Segment.monolithic 1 10) ∧
    lookupKey (set Core.empty 0 Segment.monolithic 1 10).data 0 (Segment.real 0) 2 =
      none ∧
    get (set Core.empty 0 Segment.monolithic 1 10) (Segment.real 0) 1 = some 10 ∧
    get (delete (set Core.empty 0 Segment.monolithic 1 10) 0 (Segment.real 0) 2)
      (Segment.real 0) 1 = none := by
  refine ⟨Reachable.set 0 Segment.monolithic 1 10 Reachable.empty,
    by decide, by decide, by decide⟩

/-- C4, amended: at the level of Raw Store ENTRIES, `delete(layer, segment,
key)` removes exactly the (layer, segment, key) binding and no other
binding is created or removed; but the call may create empty layer/segment
map structure, register the segment, and create a cache map for it, which
can change `get` results that previously fell through to the monolithic
cache. -/
theorem C4_amended_delete_entries (st : Core) (h : Reachable st) (l : Layer)
    (s : Segment) (k : Key) (l2 : Layer) (s2 : Segment) (k2 : Key) :
    lookupKey (delete st l s k).data l2 s2 k2 =
      if l2 = l ∧ s2 = s ∧ k2 = k then none else lookupKey st.data l2 s2 k2 :=
  delete_lookup st (reachable_wf h) l s k l2 s2 k2

theorem C4_witness :
    lookupKey (delete (set Core.empty 0 Segment.monolithic 1 10) 0 (Segment.real 0) 2).data
        0 Segment.monolithic 1 =
      if (0 : Layer) = 0 ∧ Segment.monolithic = Segment.real 0 ∧ (1 : Key) = 2 then none
      else lookupKey (set Core.empty 0 Segment.monolithic 1 10).data 0 Segment.monolithic 1 :=
  C4_amended_delete_entries (set Core.empty 0 Segment.monolithic 1 10)
    (Reachable.set 0 Segment.monolithic 1 10 Reachable.empty) 0 (Segment.real 0) 2
    0 Segment.monolithic 1

/-- C5, counterexample: after `deleteSegmentData(monolithic)` the cache of
segment B keeps a stale value resolved earlier through the (now cleared)
monolithic data. B has its own value 20 for the key at layer 3, yet
`set(3, A, key, 99)` with A ≠ B refreshes B's cache and changes
`get(B, key)` from the stale 10 to 20. -/
theorem C5_counterexample :
    Reachable (deleteSegmentData
      (set (set Core.empty 5 Segment.monolithic 1 10) 3 (Segment.real 0) 1 20)
      Segment.monolithic) ∧
    lookupKey (deleteSegmentData
      (set (set Core.empty 5 Segment.monolithic 1 10) 3 (Segment.real 0) 1 20)
      Segment.monolithic).data 3 (Segment.real 0) 1 = some 20 ∧
    get (deleteSegmentData
      (set (set Core.empty 5 Segment.monolithic 1 10) 3 (Segment.real 0) 1 20)
      Segment.monolithic) (Segment.real 0) 1 = some 10 ∧
    get (set (deleteSegmentData
      (set (set Core.empty 5 Segment.monolithic 1 10) 3 (Segment.real 0) 1 20)
      Segment.monolithic) 3 (Segment.real 1) 1 99) (Segment.real 0) 1 = some 20 := by
  refine ⟨Reachable.delSeg Segment.monolithic (Reachable.set 3 (Segment.real 0) 1 20
    (Reachable.set 5 Segment.monolithic 1 10 Reachable.empty)),
    by decide, by decide, by decide⟩

/-- C5, amended: if additionally segment B's current `get` answer agrees
with resolution from the Raw Store (which can only fail after the
monolithic segment's data has been cleared), then `set(L, A, key, v)` with
A ≠ B leaves `get(B, key)` unchanged whenever B has its own value for the
key at a layer of priority at least L. -/
theorem C5_amended_segment_isolation (st : Core) (h : Reachable st) (L : Layer)
    (A B : Segment) (k : Key) (v : Value) (hAB : A ≠ B)
    (hown : ∃ LP, L ≤ LP ∧ lookupKey st.data LP B k ≠ none)
    (hfresh : get st B k = resolve st B k) :
    get (set st L A k v) B k = get st B k := by
  have hw := reachable_wf h
  obtain ⟨LP, hLP, hownv⟩ := hown
  have h1 : get (set st L A k v) B k = resolve (set st L A k v) B k := by
    rw [set_eq]
    exact updateCache_get _ k (set_wf_step st L A k v hw) B
  rw [h1, resolve_set_invariant st hw L A B k v (Ne.symm hAB) LP hLP hownv, hfresh]

theorem C5_witness :
    get (set (set Core.empty 2 (Segment.real 0) 1 7) 2 (Segment.real 1) 1 9)
        (Segment.real 0) 1 =
      get (set Core.empty 2 (Segment.real 0) 1 7) (Segment.real 0) 1 :=
  C5_amended_segment_isolation (set Core.empty 2 (Segment.real 0) 1 7)
    (Reachable.set 2 (Segment.real 0) 1 7 Reachable.empty) 2 (Segment.real 1)
    (Segment.real 0) 1 9 (by decide) ⟨2, le_refl 2, by decide⟩ (by decide)

/-- C6: `deleteSegmentData(S)` removes S's map from every layer, drops S's
cache map, unregisters S (so `has(S, key)` is false for every key), is a
no-op the second time (and on a fully unknown segment), and S can be
written to again immediately, after which `has(S, key)` holds. -/
theorem C6_deleteSegmentData (st : Core) (h : Reachable st) (s : Segment) :
    (∀ k, has (deleteSegmentData st s) s k = false) ∧
    alistGet (deleteSegmentData st s).topLevelCache s = none ∧
    (∀ l, alistGet (lData (deleteSegmentData st s).data l) s = none) ∧
    s ∉ (deleteSegmentData st s).segments ∧
    deleteSegmentData (deleteSegmentData st s) s = deleteSegmentData st s ∧
    (s ∉ st.segments → deleteSegmentData st s = st) ∧
    (∀ l k v, has (set (deleteSegmentData st s) l s k v) s k = true) := by
  have hw := reachable_wf h
  have hw2 : WF (deleteSegmentData st s) := deleteSegmentData_wf st s hw
  have hcache : alistGet (deleteSegmentData st s).topLevelCache s = none :=
    alistGet_delete_self _ _ hw.cache_keys_nodup
  refine ⟨?_, hcache, ?_, ?_, ?_, ?_, ?_⟩
  · intro k
    rw [has, hcache]
  · intro l
    show alistGet (lData (st.data.map (fun p => (p.1, alistDelete p.2 s))) l) s = none
    rw [lData, alistGet_map_values st.data (fun m => alistDelete m s) l]
    rcases hg : alistGet st.data l with _ | ld
    · simp [alistGet]
    · rw [Option.map_some', Option.getD_some]
      exact alistGet_delete_self _ _ (hw.seg_keys_nodup (l, ld) (alistGet_mem _ _ _ hg))
  · exact hw.segments_nodup.not_mem_erase
  · apply coreExt
    · show (st.data.map (fun p => (p.1, alistDelete p.2 s))).map
          (fun p => (p.1, alistDelete p.2 s)) =
        st.data.map (fun p => (p.1, alistDelete p.2 s))
      rw [List.map_map]
      apply List.map_congr_left
      intro p hp
      show (p.1, alistDelete (alistDelete p.2 s) s) = (p.1, alistDelete p.2 s)
      rw [alistDelete_idem _ _ (hw.seg_keys_nodup p hp)]
    · rfl
    · show ((segRemove st.segments s).erase s) = segRemove st.segments s
      exact List.erase_of_not_mem hw.segments_nodup.not_mem_erase
    · show alistDelete (alistDelete st.topLevelCache s) s =
        alistDelete st.topLevelCache s
      exact alistDelete_idem _ _ hw.cache_keys_nodup
  · intro hns
    apply coreExt
    · show st.data.map (fun p => (p.1, alistDelete p.2 s)) = st.data
      have hpm : ∀ p ∈ st.data, (fun p : Layer × SegMap => (p.1, alistDelete p.2 s)) p =
          id p := by
        intro p hp
        have hsn : s ∉ p.2.map Prod.fst := by
          intro hmem
          obtain ⟨q, hq, rfl⟩ := keys_mem_exists _ _ hmem
          exact hns (hw.data_sub p hp q hq)
        show (p.1, alistDelete p.2 s) = p
        rw [alistDelete_of_not_mem _ _ hsn]
      rw [List.map_congr_left hpm, List.map_id]
    · rfl
    · exact List.erase_of_not_mem hns
    · show alistDelete st.topLevelCache s = st.topLevelCache
      have hsn : s ∉ st.topLevelCache.map Prod.fst := by
        intro hmem
        obtain ⟨q, hq, rfl⟩ := keys_mem_exists _ _ hmem
        exact hns (hw.cache_sub q hq)
      exact alistDelete_of_not_mem _ _ hsn
  · intro l k v
    obtain ⟨P, W, S, A1, B1⟩ := updateCache_spec
      { ensureLS (deleteSegmentData st s) l s with
        data := dataSetKey (ensureLS (deleteSegmentData st s) l s).data l s k v } k
      (set_wf_step (deleteSegmentData st s) l s k v hw2)
    have W2 : WF { ensureLS (deleteSegmentData st s) l s with
        data := dataSetKey (ensureLS (deleteSegmentData st s) l s).data l s k v } :=
      set_wf_step (deleteSegmentData st s) l s k v hw2
    have hsreg : s ∈ (updateCache
        { ensureLS (deleteSegmentData st s) l s with
          data := dataSetKey (ensureLS (deleteSegmentData st s) l s).data l s k v }
        k).segments :=
      P.2.2.2.subset (ensureLS_seg_registered (deleteSegmentData st s) l s hw2)
    obtain ⟨m, hm, hmk⟩ := A1 s hsreg
    have hlook : lookupKey (dataSetKey (ensureLS (deleteSegmentData st s) l s).data
        l s k v) l s k = some v := by
      unfold lookupKey
      show alistGet (lsData (alistSet (ensureLS (deleteSegmentData st s) l s).data l
        (alistSet (lData (ensureLS (deleteSegmentData st s) l s).data l) s
          (alistSet (lsData (ensureLS (deleteSegmentData st s) l s).data l s) k v)))
        l s) k = some v
      rw [lsData_dataWrite, if_pos ⟨rfl, rfl⟩]
      exact alistGet_set_self _ _ _
    have hlmem : l ∈ ({ ensureLS (deleteSegmentData st s) l s with
        data := dataSetKey (ensureLS (deleteSegmentData st s) l s).data l s k v } :
          Core).layers := by
      rw [W2.layers_eq, mem_sortDesc]
      show l ∈ (dataSetKey (ensureLS (deleteSegmentData st s) l s).data l s k v).map
        Prod.fst
      rw [show dataSetKey (ensureLS (deleteSegmentData st s) l s).data l s k v =
        alistSet (ensureLS (deleteSegmentData st s) l s).data l
          (alistSet (lData (ensureLS (deleteSegmentData st s) l s).data l) s
            (alistSet (lsData (ensureLS (deleteSegmentData st s) l s).data l s) k v))
        from rfl, alistSet_keys_of_mem _ _ _ (ensureLS_mem_layer _ l s)]
      exact ensureLS_mem_layer _ l s
    have hhit : layerHit (dataSetKey (ensureLS (deleteSegmentData st s) l s).data
        l s k v) s k l ≠ none := by
      rw [layerHit_of_own _ _ _ _ _ hlook]
      simp
    have hres := resolveOn_isSome _ s k _ l hlmem hhit
    rw [set_eq, has, hm]
    show (alistGet m k).isSome = true
    rw [hmk]
    exact hres

theorem C6_witness :
    has (deleteSegmentData (set Core.empty 0 (Segment.real 0) 1 2) (Segment.real 0))
      (Segment.real 0) 1 = false ∧
    deleteSegmentData
        (deleteSegmentData (set Core.empty 0 (Segment.real 0) 1 2) (Segment.real 0))
        (Segment.real 0) =
      deleteSegmentData (set Core.empty 0 (Segment.real 0) 1 2) (Segment.real 0) ∧
    has (set (deleteSegmentData (set Core.empty 0 (Segment.real 0) 1 2) (Segment.real 0))
      0 (Segment.real 0) 1 5) (Segment.real 0) 1 = true := by
  obtain ⟨a, b, c, d, e, f, g⟩ := C6_deleteSegmentData
    (set Core.empty 0 (Segment.real 0) 1 2)
    (Reachable.set 0 (Segment.real 0) 1 2 Reachable.empty) (Segment.real 0)
  exact ⟨a 1, e, g 0 1 5⟩

theorem delete_keys_cases (st : Core) (hw : WF st) (L : Layer) (A : Segment) (k : Key) :
    (L ∈ st.data.map Prod.fst ∧
      (delete st L A k).data.map Prod.fst = st.data.map Prod.fst) ∨
    (L ∉ st.data.map Prod.fst ∧
      (delete st L A k).data.map Prod.fst = st.data.map Prod.fst ++ [L]) := by
  obtain ⟨P, _, _, _, _⟩ := updateCache_spec
    { ensureLS st L A with data := dataDelKey (ensureLS st L A).data L A k } k
    (delete_wf_step st L A k hw)
  have hk : (delete st L A k).data.map Prod.fst =
      (ensureLS st L A).data.map Prod.fst := by
    rw [delete_eq, P.2.2.1]
    show (dataDelKey (ensureLS st L A).data L A k).map Prod.fst = _
    exact alistSet_keys_of_mem _ _ _ (ensureLS_mem_layer st L A)
  rcases ensureLS_keys_cases st L A with ⟨h1, h2⟩ | ⟨h1, h2⟩
  · exact Or.inl ⟨h1, by rw [hk, h2]⟩
  · exact Or.inr ⟨h1, by rw [hk, h2]⟩

/-- C7: `has(segment, key)` is true exactly when the segment itself has a
cache entry for the key (no monolithic fallback), and there are states
where `get` returns a value through the fallback while `has` is false. -/
theorem C7_has_segment_exact :
    (∀ (st : Core) (s : Segment) (k : Key),
      has st s k = true ↔ cacheVal st s k ≠ none) ∧
    get (set Core.empty 0 Segment.monolithic 1 10) (Segment.real 0) 1 = some 10 ∧
    has (set Core.empty 0 Segment.monolithic 1 10) (Segment.real 0) 1 = false := by
  refine ⟨?_, by decide, by decide⟩
  intro st s k
  rcases hc : alistGet st.topLevelCache s with _ | m
  · rw [has, cacheVal, hc]
    simp
  · rw [has, cacheVal, hc]
    simp [Option.isSome_iff_ne_none]

/-- C8: after any operation sequence the layer list equals the raw store's
layer keys sorted strictly by descending priority without duplicates, and
no operation ever removes a layer from it. -/
theorem C8_layer_list (st : Core) (h : Reachable st) :
    st.layers = sortDesc (st.data.map Prod.fst) ∧
    (st.data.map Prod.fst).Nodup ∧
    st.layers.Pairwise (fun a b => b < a) ∧
    (∀ l, l ∈ st.layers ↔ l ∈ st.data.map Prod.fst) ∧
    (∀ s, (deleteSegmentData st s).layers = st.layers) ∧
    (∀ L s k v l, l ∈ st.layers → l ∈ (set st L s k v).layers) ∧
    (∀ L s k l, l ∈ st.layers → l ∈ (delete st L s k).layers) := by
  have hw := reachable_wf h
  refine ⟨hw.layers_eq, hw.data_keys_nodup, ?_, ?_, fun _ => rfl, ?_, ?_⟩
  · rw [hw.layers_eq]
    exact sortDesc_strict _ hw.data_keys_nodup
  · intro l
    rw [hw.layers_eq]
    exact mem_sortDesc _ _
  · intro L s k v l hl
    have hk := hw.layers_mem l hl
    have W2 : WF (set st L s k v) := set_wf st L s k v hw
    rw [W2.layers_eq, mem_sortDesc]
    rcases set_keys_cases st hw L s k v with ⟨_, he⟩ | ⟨_, he⟩
    · rw [he]
      exact hk
    · rw [he]
      exact List.mem_append_left _ hk
  · intro L s k l hl
    have hk := hw.layers_mem l hl
    have W2 : WF (delete st L s k) := delete_wf st L s k hw
    rw [W2.layers_eq, mem_sortDesc]
    rcases delete_keys_cases st hw L s k with ⟨_, he⟩ | ⟨_, he⟩
    · rw [he]
      exact hk
    · rw [he]
      exact List.mem_append_left _ hk

/-- C8 witness at a concrete reachable state. -/
theorem C8_witness :
    (set Core.empty 0 (Segment.real 0) 1 2).layers =
      sortDesc ((set Core.empty 0 (Segment.real 0) 1 2).data.map Prod.fst) ∧
    0 ∈ (set (set Core.empty 0 (Segment.real 0) 1 2) 5 (Segment.real 1) 3 4).layers := by
  obtain ⟨a, b, c, d, e, f, g⟩ :=
    C8_layer_list _ (Reachable.set 0 (Segment.real 0) 1 2 Reachable.empty)
  exact ⟨a, f 5 (Segment.real 1) 3 4 0 (by decide)⟩

/-- C9: registering validators for a key a second time without a replace
directive fails with an error at registration time (the registry never
touches the storage core), and the first registration stays active. -/
theorem C9_validator_replay (r : ValidatorRegistry) (k : Key) (vs vs2 : List Nat)
    (r1 : ValidatorRegistry) (h : setValidators r k vs false = Except.ok r1) :
    alistGet r1.validators k = some vs ∧
    setValidators r1 k vs2 false =
      Except.error "Validators for this key were already set." := by
  unfold setValidators at h
  by_cases hc : (alistGet r.validators k).isSome
  · rw [if_pos ⟨rfl, hc⟩] at h
    exact absurd h (by simp)
  · rw [if_neg (fun hcc => hc hcc.2)] at h
    obtain rfl := Except.ok.inj h
    have hget : alistGet (alistSet r.validators k vs) k = some vs :=
      alistGet_set_self _ _ _
    refine ⟨hget, ?_⟩
    unfold setValidators
    rw [if_pos ⟨rfl, by rw [hget]; rfl⟩]

/-- C9 witness at a concrete registry. -/
theorem C9_witness :
    alistGet (ValidatorRegistry.mk [(1, [5])]).validators 1 = some [5] ∧
    setValidators (ValidatorRegistry.mk [(1, [5])]) 1 [6] false =
      Except.error "Validators for this key were already set." :=
  C9_validator_replay (ValidatorRegistry.mk []) 1 [5] [6]
    (ValidatorRegistry.mk [(1, [5])]) rfl

/-- C10: `get` and `has` are pure reads: the state transformers translated
from the source return the state unchanged together with exactly the pure
lookup results, so repeated calls on the same state return the same
result. -/
theorem C10_get_has_pure (st : Core) (s : Segment) (k : Key) :
    (getOp st s k).1 = st ∧ (getOp st s k).2 = get st s k ∧
    (hasOp st s k).1 = st ∧ (hasOp st s k).2 = has st s k ∧
    getOp (getOp st s k).1 s k = getOp st s k ∧
    hasOp (hasOp st s k).1 s k = hasOp st s k := by
  rcases hc : alistGet st.topLevelCache s with _ | m <;>
    rcases hm : alistGet st.topLevelCache Segment.monolithic with _ | mm <;>
      simp [getOp, hasOp, get, has, hc, hm]

end LS
